import Mathlib

/-!
Verification of the Mussels build orchestrator core (`mussels/mussels.py` and
the `cookbook add` command of `mussels/__main__.py`) against its specification.

The Python code is shallowly embedded: dictionaries become association lists,
in-place mutation becomes explicit state threading, raised exceptions become
`Except` errors, and the unbounded recursion of `__identify_build_recipes`
receives an explicit fuel parameter (running out of fuel models a recursion
that has not terminated within the given depth).

The helper module `mussels/utils/versions.py` (`get_item_version`,
`sort_all_recipes_by_version`) is not part of the sources; those parts are
modelled from the specification and are marked `Modelled from the spec:` in
their doc comments.  Everything else is translated from `mussels.py` /
`__main__.py` directly, bug for bug.
-/

namespace Mussels

/-- Failure of the version-index selection (`UnsatisfiableReference`):
no entry of the index survives the reference filter. -/
inductive SelErr
  | unsatisfiable
deriving DecidableEq, Repr

/-- Failures of `Mussels.__get_recipe_version`: a failed selection, a
`KeyError` from a catalog lookup, or the re-raised tool-availability
exception of the pruning pass (lines 356-361). -/
inductive GrvErr
  | unsatisfiable
  | keyError
  | noToolVersion (tool : String)
deriving DecidableEq, Repr

/-- Lift of a selection failure into `GrvErr`. -/
def GrvErr.ofSel : SelErr → GrvErr
  | .unsatisfiable => .unsatisfiable

/-- Failures of the resolver `Mussels.__identify_build_recipes` and the
planner `Mussels.__get_build_batches`.  `outOfFuel` is the embedding of a
recursion that did not terminate within the provided depth; the Python
original has no such case and simply recurses. -/
inductive ResErr
  | unsatisfiable
  | keyError
  | noToolVersion (tool : String)
  | circular (chain : List String)
  | circularDeps (remaining : List (String × List String))
  | outOfFuel
deriving DecidableEq, Repr

/-- Lift of a `__get_recipe_version` failure into `ResErr`. -/
def ResErr.ofGrv : GrvErr → ResErr
  | .unsatisfiable => .unsatisfiable
  | .keyError => .keyError
  | .noToolVersion t => .noToolVersion t

/-- Failures of the whole `Mussels.build_recipe` pipeline.  `typeError` and
`indexError` embed the uncaught Python `TypeError` / `IndexError`
exceptions; `missingTools` embeds the `sys.exit(1)` at line 580. -/
inductive BuildErr
  | unsatisfiable
  | keyError
  | noToolVersion (tool : String)
  | circular (chain : List String)
  | circularDeps (remaining : List (String × List String))
  | outOfFuel
  | typeError
  | indexError
  | missingTools
deriving DecidableEq, Repr

/-- Lift of a resolver or planner failure into `BuildErr`. -/
def BuildErr.ofRes : ResErr → BuildErr
  | .unsatisfiable => .unsatisfiable
  | .keyError => .keyError
  | .noToolVersion t => .noToolVersion t
  | .circular c => .circular c
  | .circularDeps m => .circularDeps m
  | .outOfFuel => .outOfFuel

/-- Lift of a selection failure into `BuildErr`. -/
def BuildErr.ofSel : SelErr → BuildErr
  | .unsatisfiable => .unsatisfiable

/-! ## Association-list helpers (Python dictionaries) -/

/-- Dictionary lookup: the value stored under key `k`. -/
def lookupA {β : Type} : List (String × β) → String → Option β
  | [], _ => none
  | p :: rest, k => if p.1 = k then some p.2 else lookupA rest k

/-- Dictionary assignment `d[k] = v` for a key already present: the entry
keeps its position. -/
def updateA {β : Type} (l : List (String × β)) (k : String) (v : β) :
    List (String × β) :=
  l.map (fun p => if p.1 = k then (k, v) else p)

/-- Dictionary assignment `d[k] = v`: replace the entry in place if the key
exists, otherwise append it (Python insertion order). -/
def update_or_append {β : Type} (l : List (String × β)) (k : String) (v : β) :
    List (String × β) :=
  if (lookupA l k).isSome then updateA l k v else l ++ [(k, v)]

/-- Remove the first occurrence of an element (used for the index
reordering performed by selection). -/
def erase_first {α : Type} [DecidableEq α] : List α → α → List α
  | [], _ => []
  | x :: xs, a => if x = a then xs else x :: erase_first xs a

/-- Add an element to the back of a list unless already present: the
embedding of insertion into a Python `set`, keeping insertion order. -/
def insert_unique {α : Type} [DecidableEq α] (l : List α) (a : α) : List α :=
  if a ∈ l then l else l ++ [a]

/-- The embedding of `set(xs)` for a list: deduplicate keeping the first
occurrence of each element. -/
def dedup_keep_first {α : Type} [DecidableEq α] (l : List α) : List α :=
  l.foldl insert_unique []

/-! ## The version index and reference parsing -/

/-- One entry of a sorted version index: a version together with the
cookbooks providing it, in preference order (spec 3, "Version Index"). -/
structure VEntry where
  version : String
  cookbooks : List String
deriving DecidableEq, Repr

/-- A sorted version index: for each item name, entries sorted descending
by version (the head is the default). -/
abbrev SIndex := List (String × List VEntry)

/-- A resolved `(name, version, cookbook)` triple, the return value of
`get_item_version` (accessed in the sources both as `nvc["name"]` and,
at line 411, as the first component `[0]` of the spec's triple). -/
structure NVC where
  name : String
  version : String
  cookbook : String
deriving DecidableEq, Repr

/-- A parsed reference: optional cookbook, item name, optional
exact-version constraint. -/
structure RefParts where
  cookbook : Option String
  name : String
  constraint : Option String
deriving DecidableEq, Repr

/-- Split a character list at the first occurrence of a character. -/
def splitAtChar : List Char → Char → Option (List Char × List Char)
  | [], _ => none
  | c :: cs, t =>
    if c = t then some ([], cs)
    else (splitAtChar cs t).map (fun p => (c :: p.1, p.2))

/-- Split a character list at the first occurrence of `==`. -/
def splitAtEqEq : List Char → Option (List Char × List Char)
  | [] => none
  | '=' :: '=' :: cs => some ([], cs)
  | c :: cs => (splitAtEqEq cs).map (fun p => (c :: p.1, p.2))

/-- Modelled from the spec: reference parsing of `get_item_version`
(`mussels/utils/versions.py`, not under the sources).  A reference is
`[cookbook:]name[==version]` (spec 3, "Reference syntax"); the cookbook is
everything before the first `:`.  The toolchain re-pin at line 556 of
`mussels.py` writes the exact-version constraint with a single `=`
(`cookbook:name=version`), so a single `=` is accepted as the same
exact-version constraint when no `==` is present. -/
def parse_ref (item : String) : RefParts :=
  let (cb, rest) :=
    match splitAtChar item.data ':' with
    | some (l, r) => (some (String.mk l), String.mk r)
    | none => ((none : Option String), item)
  match splitAtEqEq rest.data with
  | some (n, v) => ⟨cb, String.mk n, some (String.mk v)⟩
  | none =>
    match splitAtChar rest.data '=' with
    | some (n, v) => ⟨cb, String.mk n, some (String.mk v)⟩
    | none => ⟨cb, rest, none⟩

/-- Does a version-index entry survive the filter of a parsed reference? -/
def entry_matches (r : RefParts) (e : VEntry) : Bool :=
  (match r.constraint with
   | some v => e.version = v
   | none => true) &&
  (match r.cookbook with
   | some cb => decide (cb ∈ e.cookbooks)
   | none => true)

/-- Modelled from the spec: `get_item_version(item, sorted_items)` of
`mussels/utils/versions.py` (not under the sources), the `select`
operation of spec 4.2.  Parse the reference; filter the entries of
`index[name]` to those matching the constraint and, if a cookbook was
specified, to those listing it; return the highest (first) remaining
entry with the specified cookbook (or its first-listed one), and mutate
the index so the selected entry is the head of `index[name]` and the
selected cookbook is first in its cookbook list (selection stickiness,
spec 4.2 step 4).  No surviving entry signals `UnsatisfiableReference`. -/
def select_entry (r : RefParts) (idx : SIndex) : Except SelErr (NVC × SIndex) :=
  match lookupA idx r.name with
  | none => .error .unsatisfiable
  | some entries =>
    match entries.filter (entry_matches r) with
    | [] => .error .unsatisfiable
    | e :: _ =>
      let selCb :=
        match r.cookbook with
        | some cb => cb
        | none => e.cookbooks.headD ""
      let e2 : VEntry := { e with cookbooks := selCb :: erase_first e.cookbooks selCb }
      let idx2 := updateA idx r.name (e2 :: erase_first entries e)
      .ok (⟨r.name, e.version, selCb⟩, idx2)

/-- The selection operation applied to an unparsed reference string. -/
def get_item_version (item : String) (idx : SIndex) :
    Except SelErr (NVC × SIndex) :=
  select_entry (parse_ref item) idx

/-! ## Catalog model -/

/-- The declarative fields of a recipe definition needed by the core
(spec 3, "Recipe").  `build_succeeds` models the outcome of the external
build protocol `builder.__build()` of the recipe class. -/
structure RecipeDef where
  dependencies : List String := []
  required_tools : List String := []
  build_succeeds : Bool := true
deriving DecidableEq, Repr

/-- The fields of a tool definition needed by the core (spec 3, "Tool"):
`detects` models the outcome of the external `detect()` contract of the
instantiated tool class. -/
structure ToolDef where
  detects : Bool := false
deriving DecidableEq, Repr

/-- A nested catalog `name -> version -> cookbook -> definition`, the
embedding of `self.recipes` / `self.tools`. -/
abbrev Catalog (α : Type) := List (String × List (String × List (String × α)))

/-- Three-level catalog lookup `catalog[name][version][cookbook]`. -/
def lookup3 {α : Type} (c : Catalog α) (n v cb : String) : Option α :=
  match lookupA c n with
  | none => none
  | some vm =>
    match lookupA vm v with
    | none => none
    | some cm => lookupA cm cb

/-- Two-level catalog lookup `catalog[name][version]`, whose value is the
cookbook-level dictionary. -/
def lookup2 {α : Type} (c : Catalog α) (n v : String) : Option (List (String × α)) :=
  match lookupA c n with
  | none => none
  | some vm => lookupA vm v

/-- The mutable sorted indexes `self.sorted_recipes` and
`self.sorted_tools`, threaded explicitly because `get_item_version`
mutates them in place. -/
structure SortState where
  sorted_recipes : SIndex
  sorted_tools : SIndex
deriving DecidableEq, Repr

/-- The pruning pass of `Mussels.__get_recipe_version` (lines 348-361):
for every name of the sorted recipe index, every version entry, every
cookbook of the entry, look the recipe class up in the catalog and run
`get_item_version` on each of its required tools against the sorted tool
index (mutating it); a failed tool selection is re-raised as the
`No <tool> version available` exception. -/
def prune_tools_pass (recipes : Catalog RecipeDef) (sortedRecipes : SIndex)
    (sortedTools : SIndex) : Except GrvErr SIndex :=
  sortedRecipes.foldlM (fun st0 p =>
    p.2.foldlM (fun st1 e =>
      e.cookbooks.foldlM (fun st2 cb =>
        match lookup3 recipes p.1 e.version cb with
        | none => .error .keyError
        | some rc =>
          rc.required_tools.foldlM (fun st3 tool =>
            match get_item_version tool st3 with
            | .error _ => .error (.noToolVersion tool)
            | .ok (_, st4) => .ok st4) st2) st1) st0) sortedTools

/-- `Mussels.__get_recipe_version` (lines 327-362): select the recipe via
`get_item_version` against the sorted recipe index (mutating it), then run
the tool pruning pass against the mutated indexes, and return the selected
`(name, version, cookbook)` triple. -/
def get_recipe_version (recipes : Catalog RecipeDef) (ss : SortState)
    (item : String) : Except GrvErr (NVC × SortState) :=
  match get_item_version item ss.sorted_recipes with
  | .error e => .error (GrvErr.ofSel e)
  | .ok (nvc, sr2) =>
    match prune_tools_pass recipes sr2 ss.sorted_tools with
    | .error e => .error e
    | .ok st2 => .ok (nvc, ⟨sr2, st2⟩)

/-- Cookbook qualification of a dependency reference (lines 384-388): a
dependency without an explicit `cookbook:` prefix is selected from the
current recipe's cookbook. -/
def qualify_dep (cb dep : String) : String :=
  if (splitAtChar dep.data ':').isNone then cb ++ ":" ++ dep else dep

/-- The dependency loop of `Mussels.__identify_build_recipes`
(lines 384-390): qualify each dependency with the current cookbook, hand
it to the recursive resolver `step`, and thread the chain and the mutated
indexes, concatenating the recipe lists. -/
def identify_deps_go
    (step : SortState → String → List String →
      Except ResErr (List String × List String × SortState))
    (cb : String) :
    List String → List String → SortState →
    Except ResErr (List String × List String × SortState)
  | [], chain, ss => .ok ([], chain, ss)
  | d :: ds, chain, ss =>
    match step ss (qualify_dep cb d) chain with
    | .error e => .error e
    | .ok (l1, chain1, ss1) =>
      match identify_deps_go step cb ds chain1 ss1 with
      | .error e => .error e
      | .ok (l2, chain2, ss2) => .ok (l1 ++ l2, chain2, ss2)

/-- `Mussels.__identify_build_recipes` (lines 364-392): select the recipe,
signal `CircularDependency` with the current chain when the selected name
equals the base of the chain (the check precedes appending the name, and
only the base `chain[0]` is compared), append the name to the chain, and
recurse into the cookbook-qualified dependencies, collecting the reference
strings.  `fuel` bounds the recursion depth of the embedding; the Python
original recurses unboundedly. -/
def identify_build_recipes (recipes : Catalog RecipeDef) :
    Nat → SortState → String → List String →
    Except ResErr (List String × List String × SortState)
  | 0, _, _, _ => .error .outOfFuel
  | fuel + 1, ss, item, chain =>
    match get_recipe_version recipes ss item with
    | .error e => .error (ResErr.ofGrv e)
    | .ok (nvc, ss1) =>
      if chain.head? == some nvc.name then .error (.circular chain)
      else
        let chain1 := chain ++ [nvc.name]
        match lookup3 recipes nvc.name nvc.version nvc.cookbook with
        | none => .error .keyError
        | some rdef =>
          match identify_deps_go
              (fun ss2 i ch => identify_build_recipes recipes fuel ss2 i ch)
              nvc.cookbook rdef.dependencies chain1 ss1 with
          | .error e => .error e
          | .ok (l, chain2, ss2) => .ok (item :: l, chain2, ss2)

/-! ## The batch planner -/

/-- The set of recipes with no remaining dependencies (line 422). -/
def ready_set (m : List (String × List String)) : List String :=
  (m.filter (fun p => decide (p.2 = []))).map Prod.fst

/-- Remove the ready recipes from the dependency map and subtract them
from every remaining dependency set (lines 430-434). -/
def remove_ready (m : List (String × List String)) (ready : List String) :
    List (String × List String) :=
  (m.filter (fun p => !decide (p.1 ∈ ready))).map
    (fun p => (p.1, p.2.filter (fun d => !decide (d ∈ ready))))

/-- The body of the batching loop of `Mussels.__get_build_batches`
(lines 416-440), with an explicit iteration bound: emit the set of recipes
with no remaining dependencies as the next batch and subtract it from the
rest; an empty ready set with a non-empty map signals circular
dependencies.  Every iteration of the Python loop removes at least one
key, so the bound `m.length + 1` supplied by `get_build_batches_loop`
always suffices and the `outOfFuel` case is unreachable from it. -/
def get_build_batches_go :
    Nat → List (String × List String) → Except ResErr (List (List String))
  | 0, m => if m = [] then .ok [] else .error .outOfFuel
  | fuel + 1, m =>
    if m = [] then .ok []
    else if ready_set m = [] then .error (.circularDeps m)
    else
      match get_build_batches_go fuel (remove_ready m (ready_set m)) with
      | .error e => .error e
      | .ok rest => .ok (ready_set m :: rest)

/-- The batching loop of `Mussels.__get_build_batches` (lines 416-440). -/
def get_build_batches_loop (m : List (String × List String)) :
    Except ResErr (List (List String)) :=
  get_build_batches_go (m.length + 1) m

/-- The dependency-map construction of `Mussels.__get_build_batches`
(lines 404-414): for each identified recipe reference, re-select it via
`__get_recipe_version` and map the selected name to the set of names
selected for its (unqualified) dependencies.  The source reads the name of
a dependency selection as component `[0]` of the spec's
`(name, version, cookbook)` triple (line 411); here that projection is
`NVC.name`. -/
def build_dep_map (recipes : Catalog RecipeDef) (ss : SortState)
    (allRecipes : List String) :
    Except GrvErr (List (String × List String) × SortState) :=
  allRecipes.foldlM (fun acc r =>
    match get_recipe_version recipes acc.2 r with
    | .error e => .error e
    | .ok (nvc, ss1) =>
      match lookup3 recipes nvc.name nvc.version nvc.cookbook with
      | none => .error .keyError
      | some rdef =>
        match rdef.dependencies.foldlM (fun acc2 dep =>
            match get_recipe_version recipes acc2.2 dep with
            | .error e => Except.error e
            | .ok (nvcd, ss2) => Except.ok (insert_unique acc2.1 nvcd.name, ss2))
            (([] : List String), ss1) with
        | .error e => .error e
        | .ok (depNames, ss3) =>
          .ok (update_or_append acc.1 nvc.name depNames, ss3))
    (([] : List (String × List String)), ss)

/-- `Mussels.__get_build_batches` (lines 394-440): identify the transitive
recipes (the Python `set(...)` is modelled as deduplication keeping the
first occurrence), build the dependency-name map, and run the batching
loop. -/
def get_build_batches (recipes : Catalog RecipeDef) (ss : SortState)
    (item : String) (fuel : Nat) :
    Except ResErr (List (List String) × SortState) :=
  match identify_build_recipes recipes fuel ss item [] with
  | .error e => .error e
  | .ok (lst, _, ss1) =>
    match build_dep_map recipes ss1 (dedup_keep_first lst) with
    | .error e => .error (ResErr.ofGrv e)
    | .ok (m, ss2) =>
      match get_build_batches_loop m with
      | .error e => .error e
      | .ok batches => .ok (batches, ss2)

/-! ## Toolchain validation -/

/-- An instantiated tool class: the version and cookbook it was
instantiated from, plus its `detect()` outcome. -/
structure ToolInst where
  version : String
  cookbook : String
  detects : Bool
deriving DecidableEq, Repr

/-- The preferred-tool collection pass of `Mussels.build_recipe`
(lines 497-514): for every recipe of every batch, look up its highest
sorted entry and first-listed cookbook, and select each required tool
against the sorted tool index, accumulating the set of preferred
`(name, version, cookbook)` triples in insertion order. -/
def collect_preferred_tools (recipes : Catalog RecipeDef)
    (batches : List (List String)) (ss : SortState) :
    Except BuildErr (List NVC × SortState) :=
  batches.foldlM (fun acc bundle =>
    bundle.foldlM (fun acc2 rname =>
      match lookupA acc2.2.sorted_recipes rname with
      | none => Except.error BuildErr.keyError
      | some [] => Except.error BuildErr.indexError
      | some (e :: _) =>
        match e.cookbooks with
        | [] => Except.error BuildErr.indexError
        | hcb :: _ =>
          match lookup3 recipes rname e.version hcb with
          | none => Except.error BuildErr.keyError
          | some rc =>
            rc.required_tools.foldlM (fun acc3 tool =>
              match get_item_version tool acc3.2.sorted_tools with
              | .error e2 => Except.error (BuildErr.ofSel e2)
              | .ok (nvc, st2) =>
                Except.ok (insert_unique acc3.1 nvc, ⟨acc3.2.sorted_recipes, st2⟩))
              acc2) acc)
    (([] : List NVC), ss)

/-- The alternative-version loop of the tool check (lines 545-565): probe
every remaining version entry in order; a detecting alternative records
its instance in the toolchain and re-pins the version in the sorted tool
index via `get_item_version` with the single-`=` reference of line 556.
The loop has no break: it continues past a success, so a later (lower)
detecting version overwrites an earlier one. -/
def check_tool_alternatives (tools : Catalog ToolDef) (name : String)
    (alts : List VEntry) (found : Bool)
    (toolchain : List (String × ToolInst)) (st : SIndex) :
    Except BuildErr (Bool × List (String × ToolInst) × SIndex) :=
  match alts with
  | [] => .ok (found, toolchain, st)
  | alt :: rest =>
    match alt.cookbooks with
    | [] => .error .indexError
    | acb :: _ =>
      match lookup3 tools name alt.version acb with
      | none => .error .keyError
      | some td =>
        if td.detects then
          let toolchain2 := update_or_append toolchain name ⟨alt.version, acb, td.detects⟩
          match get_item_version (acb ++ ":" ++ name ++ "=" ++ alt.version) st with
          | .error e => .error (BuildErr.ofSel e)
          | .ok (_, st2) => check_tool_alternatives tools name rest true toolchain2 st2
        else
          check_tool_alternatives tools name rest found toolchain st

/-- The tool check of `Mussels.build_recipe` (lines 516-580): instantiate
and probe each preferred tool; on failure probe the alternative versions;
a tool with no detecting version is appended to the missing list, and a
non-empty missing list aborts the build (`sys.exit(1)`, line 580). -/
def check_tools (tools : Catalog ToolDef) (pts : List NVC) (ss : SortState) :
    Except BuildErr (List (String × ToolInst) × SortState) :=
  match pts.foldlM (fun (acc : List (String × ToolInst) × List String × SIndex) pt =>
      match lookup3 tools pt.name pt.version pt.cookbook with
      | none => Except.error BuildErr.keyError
      | some td =>
        if td.detects then
          Except.ok (update_or_append acc.1 pt.name ⟨pt.version, pt.cookbook, td.detects⟩,
               acc.2.1, acc.2.2)
        else
          match lookupA acc.2.2 pt.name with
          | none => Except.error BuildErr.keyError
          | some entries =>
            match (if entries.length > 1 then
                     check_tool_alternatives tools pt.name entries.tail false acc.1 acc.2.2
                   else Except.ok (false, acc.1, acc.2.2)) with
            | .error e => Except.error e
            | .ok (found, tc2, st2) =>
              Except.ok (tc2, (if found then acc.2.1 else acc.2.1 ++ [pt.version]), st2))
    (([], [], ss.sorted_tools)) with
  | .error e => .error e
  | .ok (tc, missing, st) =>
    if missing = [] then .ok (tc, ⟨ss.sorted_recipes, st⟩)
    else .error .missingTools

/-! ## The build driver -/

/-- The second positional argument handed to `__build_recipe` at line 623:
the source passes the whole sorted-index entry `self.sorted_recipes[r][0]`
(a dictionary) where a version string is expected, so the argument is
either kind of value. -/
inductive VersionArg
  | str (s : String)
  | entry (e : VEntry)
deriving DecidableEq, Repr

/-- A per-recipe outcome record `{name, version, success}` (the wall-clock
`time elapsed` field is not modelled). -/
structure RecipeResult where
  name : String
  version : VersionArg
  success : Bool
deriving DecidableEq, Repr

/-- Persisted cookbook metadata; every field is optional because the
Python dictionaries acquire keys one at a time (a missing key raises
`KeyError` on access).  The per-cookbook `recipes`/`tools` sub-indices of
`__read_cookbook` are not modelled. -/
structure CookbookEntry where
  url : Option String := none
  path : Option String := none
  trusted : Option Bool := none
  author : Option String := none
deriving DecidableEq, Repr

/-- The cookbook map `self.cookbooks` (a `defaultdict(dict)`). -/
abbrev CookbookMap := List (String × CookbookEntry)

/-- A spawned host process for a recipe build.  In this snapshot the spawn
site is unreachable (see `build_recipe_inner`), so no run ever produces an
event. -/
inductive Event
  | spawned (recipe : String) (version : VersionArg)
deriving DecidableEq, Repr

/-- `Mussels.__build_recipe` (lines 252-325).  The trust gate reads
`self.cookbooks[cookbook]["trusted"]` for the `cookbook` argument (the
caller's cookbook, not the recipe's own): a missing `trusted` key raises
`KeyError`; an untrusted cookbook logs the remediation text (which reads
the `url` key, raising `KeyError` when absent) and returns the failure
record without building.  Past the gate, the version argument is used as
a key of `self.recipes[recipe]`: an index-entry dictionary raises
`TypeError` (unhashable), and a version string looks up the
cookbook-level dictionary and then calls it, raising `TypeError` (not
callable) — so the builder protocol `builder.__build()` (lines 317-323)
and its process spawn are unreachable in this snapshot. -/
def build_recipe_inner (recipes : Catalog RecipeDef) (cookbooks : CookbookMap)
    (ss : SortState) (recipe : String) (version : VersionArg) (cookbook : String)
    (_toolchain : List (String × ToolInst)) :
    Except BuildErr (RecipeResult × List Event) :=
  let result : RecipeResult := ⟨recipe, version, false⟩
  let centry := (lookupA cookbooks cookbook).getD {}
  match centry.trusted with
  | none => .error .keyError
  | some false =>
    match centry.url with
    | none => .error .keyError
    | some _ => .ok (result, [])
  | some true =>
    let step2 : VersionArg → Except BuildErr (RecipeResult × List Event) := fun v =>
      match v with
      | .entry _ => .error .typeError
      | .str s =>
        match lookup2 recipes recipe s with
        | none => .ok (result, [])
        | some _ => .error .typeError
    match version with
    | .str s =>
      if s = "" then
        match lookupA ss.sorted_recipes recipe with
        | none => .ok (result, [])
        | some [] => .error .indexError
        | some (e :: _) => step2 (.entry e)
      else step2 (.str s)
    | .entry e => step2 (.entry e)

/-- The per-recipe body of the dry-run branch (lines 603-615): look up the
recipe's highest sorted entry and its recipe class, and select each
required tool against the sorted tool index (mutating it). -/
def dry_run_tools (recipes : Catalog RecipeDef) (ss : SortState)
    (rname : String) : Except BuildErr SortState :=
  match lookupA ss.sorted_recipes rname with
  | none => .error .keyError
  | some [] => .error .indexError
  | some (e :: _) =>
    match e.cookbooks with
    | [] => .error .indexError
    | cb :: _ =>
      match lookup3 recipes rname e.version cb with
      | none => .error .keyError
      | some rc =>
        match rc.required_tools.foldlM (fun st tool =>
            match get_item_version tool st with
            | .error e2 => Except.error (BuildErr.ofSel e2)
            | .ok (_, st2) => Except.ok st2) ss.sorted_tools with
        | .error e2 => .error e2
        | .ok st2 => .ok ⟨ss.sorted_recipes, st2⟩

/-- Decidable equality for `Except` values, needed to decide equations
about run outcomes. -/
instance {ε α : Type} [DecidableEq ε] [DecidableEq α] :
    DecidableEq (Except ε α) := fun a b =>
  match a, b with
  | .error e1, .error e2 =>
    if h : e1 = e2 then isTrue (by rw [h]) else isFalse (fun hh => h (by cases hh; rfl))
  | .ok v1, .ok v2 =>
    if h : v1 = v2 then isTrue (by rw [h]) else isFalse (fun hh => h (by cases hh; rfl))
  | .error _, .ok _ => isFalse (fun hh => nomatch hh)
  | .ok _, .error _ => isFalse (fun hh => nomatch hh)

/-- The outcome of processing one batch of the execution loop: either an
uncaught exception aborts the whole call (carrying the results and events
accumulated so far, since the caller's lists are mutated in place), or
the loop continues with the updated failure flag and accumulators. -/
inductive ExecStep
  | abort (out : Except BuildErr (Bool × SortState) × List RecipeResult × List Event)
  | cont (failure : Bool) (ss : SortState) (results : List RecipeResult)
      (events : List Event)
deriving DecidableEq, Repr

/-- The inner (per-recipe) loop of `Mussels.build_recipe` (lines 600-627)
over one batch.  In dry-run mode each recipe only performs the logging
lookups (which mutate the sorted tool index).  Otherwise a recipe after a
failure is skipped with a warning — nothing is appended to the results
for it — and an executed recipe is handed to `__build_recipe` with the
whole sorted-index entry `self.sorted_recipes[r][0]` as version argument
and the caller's `cookbook` argument; its record is appended, and an
unsuccessful record latches the failure flag. -/
def exec_bundle (recipes : Catalog RecipeDef) (cookbooks : CookbookMap)
    (cookbook : String) (toolchain : List (String × ToolInst))
    (dry_run : Bool) :
    List String → Bool → SortState → List RecipeResult → List Event → ExecStep
  | [], failure, ss, results, events => .cont failure ss results events
  | r :: rs, failure, ss, results, events =>
    if dry_run then
      match dry_run_tools recipes ss r with
      | .error e => .abort (.error e, results, events)
      | .ok ss2 =>
        exec_bundle recipes cookbooks cookbook toolchain dry_run rs
          failure ss2 results events
    else if failure then
      exec_bundle recipes cookbooks cookbook toolchain dry_run rs
        failure ss results events
    else
      match lookupA ss.sorted_recipes r with
      | none => .abort (.error .keyError, results, events)
      | some [] => .abort (.error .indexError, results, events)
      | some (e :: _) =>
        match build_recipe_inner recipes cookbooks ss r (.entry e) cookbook
            toolchain with
        | .error er => .abort (.error er, results, events)
        | .ok (result, ev) =>
          exec_bundle recipes cookbooks cookbook toolchain dry_run rs
            (failure || !result.success) ss (results ++ [result])
            (events ++ ev)

/-- The outer (per-batch) execution loop of `Mussels.build_recipe`
(lines 597-627). -/
def exec_batches (recipes : Catalog RecipeDef) (cookbooks : CookbookMap)
    (cookbook : String) (toolchain : List (String × ToolInst))
    (dry_run : Bool) :
    List (List String) → Bool → SortState → List RecipeResult →
    List Event →
    Except BuildErr (Bool × SortState) × List RecipeResult × List Event
  | [], failure, ss, results, events => (.ok (failure, ss), results, events)
  | bundle :: rest, failure, ss, results, events =>
    match exec_bundle recipes cookbooks cookbook toolchain dry_run bundle
        failure ss results events with
    | .abort out => out
    | .cont f2 ss2 res2 ev2 =>
      exec_batches recipes cookbooks cookbook toolchain dry_run rest
        f2 ss2 res2 ev2

/-- The reference-string construction of `Mussels.build_recipe`
(lines 478-488): the `==version` constraint assembled first is
unconditionally overwritten by the `cookbook:recipe` assignment of
lines 485-488 (`local` when no cookbook was given), so the version
argument never reaches the resolver. -/
def build_recipe_str (recipe version cookbook : String) : String :=
  let recipe_str := recipe
  let recipe_str := if version ≠ "" then recipe ++ "==" ++ version else recipe_str
  let _dead := recipe_str
  if cookbook = "" then "local:" ++ recipe else cookbook ++ ":" ++ recipe

/-- The outcome of a `build_recipe` call: its return value or uncaught
exception, plus the results accumulated in the caller's list and the
spawned processes. -/
structure RunOut where
  ret : Except BuildErr Bool
  results : List RecipeResult
  events : List Event
deriving DecidableEq, Repr

/-- `Mussels.build_recipe` (lines 442-634): build the reference string,
compute the batches, validate the toolchain, run the execution loop, and
return `True` iff no recipe failed. -/
def build_recipe (recipes : Catalog RecipeDef) (tools : Catalog ToolDef)
    (cookbooks : CookbookMap) (ss : SortState)
    (recipe version cookbook : String) (results : List RecipeResult)
    (dry_run : Bool) (fuel : Nat) : RunOut :=
  match get_build_batches recipes ss (build_recipe_str recipe version cookbook) fuel with
  | .error e => ⟨.error (BuildErr.ofRes e), results, []⟩
  | .ok (batches, ss1) =>
    match collect_preferred_tools recipes batches ss1 with
    | .error e => ⟨.error e, results, []⟩
    | .ok (pts, ss2) =>
      match check_tools tools pts ss2 with
      | .error e => ⟨.error e, results, []⟩
      | .ok (toolchain, ss3) =>
        match exec_batches recipes cookbooks cookbook toolchain dry_run
            batches false ss3 results [] with
        | (.error e, res, ev) => ⟨.error e, res, ev⟩
        | (.ok (failure, _), res, ev) => ⟨.ok (!failure), res, ev⟩

/-! ## The config store and cookbook commands -/

/-- Log messages of `config_trust_cookbook`. -/
inductive LogMsg
  | errorUnknownCookbook (cookbook : String)
  | infoNowTrusted (cookbook : String)
deriving DecidableEq, Repr

/-- `Mussels.__store_config` (lines 130-150) writes the cookbook map as a
JSON document.  Modelled from the spec: the JSON round-trip preserves the
map (spec 4.7, "additive fields are preserved by round-trip"), so the
stored document is the map itself. -/
def store_config (cookbooks : CookbookMap) : CookbookMap := cookbooks

/-- Python `dict.update`: entries of the loaded document replace existing
keys in place and append new ones in order. -/
def dict_update (base upd : CookbookMap) : CookbookMap :=
  upd.foldl (fun acc p => update_or_append acc p.1 p.2) base

/-- `Mussels.__load_config` (lines 114-128): merge the stored document
into the current map with `dict.update`. -/
def load_config (config stored : CookbookMap) : CookbookMap :=
  dict_update config stored

/-- `Mussels.config_trust_cookbook` (lines 857-870): an unknown cookbook
logs an error but the function does not return; the `trusted` flag is then
set on the (possibly freshly created, via the `defaultdict`) entry and the
map is persisted. -/
def config_trust_cookbook (cookbooks : CookbookMap) (cookbook : String) :
    List LogMsg × CookbookMap × CookbookMap :=
  let logs :=
    (if (lookupA cookbooks cookbook).isNone
     then [LogMsg.errorUnknownCookbook cookbook] else [])
    ++ [LogMsg.infoNowTrusted cookbook]
  let entry := (lookupA cookbooks cookbook).getD {}
  let cookbooks2 :=
    update_or_append cookbooks cookbook { entry with trusted := some true }
  (logs, cookbooks2, store_config cookbooks2)

/-- `Mussels.config_add_cookbook` (lines 872-880): set the author, url and
`trusted := True` fields of the entry and persist the map; there is no
confirmation step. -/
def config_add_cookbook (cookbooks : CookbookMap)
    (cookbook author url : String) : CookbookMap × CookbookMap :=
  let entry := (lookupA cookbooks cookbook).getD {}
  let e2 := { entry with author := some author, url := some url,
                         trusted := some true }
  let cookbooks2 := update_or_append cookbooks cookbook e2
  (cookbooks2, store_config cookbooks2)

/-- The `cookbook add` command body (`__main__.py` lines 127-151): the
`--yes` flag is accepted by the option parser but the body never consults
it and calls `config_add_cookbook` directly. -/
def cookbook_add (cookbooks : CookbookMap) (cookbook author url : String)
    (yes : Bool) : CookbookMap × CookbookMap :=
  config_add_cookbook cookbooks cookbook author url

/-! ## Dependency graphs

Notions used to state the planner and resolver properties: the dependency
map handed to the batching loop is a finite graph whose edges go from a
recipe to each of its direct dependencies. -/

/-- The recipe names of a dependency map. -/
def depKeys (m : List (String × List String)) : List String := m.map Prod.fst

/-- The direct dependencies recorded for a name (empty when absent). -/
def depsOf (m : List (String × List String)) (x : String) : List String :=
  (lookupA m x).getD []

/-- The edge relation of a dependency map: `x` directly depends on `d`. -/
def DepEdge (m : List (String × List String)) (x d : String) : Prop :=
  d ∈ depsOf m x

/-- A dependency cycle: a closed non-trivial walk along dependency
edges. -/
def HasDepCycle (m : List (String × List String)) : Prop :=
  ∃ (x : String) (l : List String), List.Chain' (DepEdge m) (x :: (l ++ [x]))

/-- An acyclic dependency map. -/
def AcyclicDeps (m : List (String × List String)) : Prop := ¬ HasDepCycle m

/-- Every recorded dependency is itself a key of the map (true of the
map built from a resolved plan, whose transitive dependencies all appear
as keys). -/
def ClosedDeps (m : List (String × List String)) : Prop :=
  ∀ p ∈ m, ∀ d ∈ p.2, d ∈ depKeys m

/-- The keys of the map are pairwise distinct (true of a Python
dictionary). -/
def NodupKeys (m : List (String × List String)) : Prop := (depKeys m).Nodup

/-- The batch-layering property of spec 8, invariant 2: every direct
dependency of a recipe of batch `k` belongs to a batch `i < k`. -/
def SoundBatches (m : List (String × List String))
    (bs : List (List String)) : Prop :=
  ∀ (k : Nat) (hk : k < bs.length), ∀ x ∈ bs.get ⟨k, hk⟩,
    ∀ d ∈ depsOf m x, ∃ (i : Nat) (hi : i < bs.length), i < k ∧ d ∈ bs.get ⟨i, hi⟩

/-- A rank function witnessing acyclicity of a dependency map: every edge
strictly decreases the rank. -/
def RankOkMap (m : List (String × List String)) (rank : String → Nat) : Prop :=
  ∀ p ∈ m, ∀ d ∈ p.2, rank d < rank p.1

/-- The name component of a reference string. -/
def refName (item : String) : String := (parse_ref item).name

/-- All cookbooks listed anywhere in a sorted index. -/
def all_cookbooks (idx : SIndex) : List String :=
  idx.flatMap (fun p => p.2.flatMap (fun e => e.cookbooks))

/-- Well-formedness of a sorted index: every entry lists at least one
cookbook (spec 3, "Version Index": an entry records the cookbooks that
provide the version, of which there is at least one). -/
def WFIndex (idx : SIndex) : Prop :=
  ∀ p ∈ idx, ∀ e ∈ p.2, e.cookbooks ≠ []

/-- A rank function witnessing that the catalog's dependency graph is
acyclic: for every definition in the catalog and every cookbook that a
dependency could be qualified with, the name selected for the dependency
has strictly smaller rank than the defining recipe's name. -/
def RankOkCatalog (recipes : Catalog RecipeDef) (cbs : List String)
    (rank : String → Nat) : Prop :=
  ∀ p ∈ recipes, ∀ q ∈ p.2, ∀ c ∈ q.2,
    ∀ d ∈ (c.2 : RecipeDef).dependencies, ∀ cb ∈ cbs,
      rank (refName (qualify_dep cb d)) < rank p.1

/-! ## Concrete fixtures

Small catalogs used by the counterexamples and witnesses. -/

/-- Catalog for the trust-gate analysis: `app` (cookbook `safe`, trusted)
depends on `evil:lib` (cookbook `evil`, untrusted). -/
def recipesT : Catalog RecipeDef :=
  [("app", [("1", [("safe", { dependencies := ["evil:lib"] })])]),
   ("lib", [("1", [("evil", {})])])]

/-- Sorted index for `recipesT`. -/
def ssT : SortState :=
  ⟨[("app", [⟨"1", ["safe"]⟩]), ("lib", [⟨"1", ["evil"]⟩])], []⟩

/-- Cookbook map for `recipesT`: `safe` is trusted, `evil` is not. -/
def cookbooksT : CookbookMap :=
  [("safe", { url := some "https://s", trusted := some true }),
   ("evil", { url := some "https://e", trusted := some false })]

/-- Catalog for the failure-propagation analysis: `app` depends on `lib`,
both from the single untrusted cookbook `u`. -/
def recipesF : Catalog RecipeDef :=
  [("app", [("1", [("u", { dependencies := ["lib"] })])]),
   ("lib", [("1", [("u", {})])])]

/-- Sorted index for `recipesF`. -/
def ssF : SortState :=
  ⟨[("app", [⟨"1", ["u"]⟩]), ("lib", [⟨"1", ["u"]⟩])], []⟩

/-- Cookbook map for `recipesF`: `u` is untrusted. -/
def cookbooksF : CookbookMap :=
  [("u", { url := some "https://u", trusted := some false })]

/-- Catalog with the two-recipe cycle `a -> b -> a` in cookbook `k`. -/
def recipesAB : Catalog RecipeDef :=
  [("a", [("1", [("k", { dependencies := ["b"] })])]),
   ("b", [("1", [("k", { dependencies := ["a"] })])])]

/-- Sorted index for `recipesAB`. -/
def ssAB : SortState :=
  ⟨[("a", [⟨"1", ["k"]⟩]), ("b", [⟨"1", ["k"]⟩])], []⟩

/-- Catalog with a cycle `b -> c -> b` that does not pass through the
root `a` (`a` depends on `b`). -/
def recipesBC : Catalog RecipeDef :=
  [("a", [("1", [("k", { dependencies := ["b"] })])]),
   ("b", [("1", [("k", { dependencies := ["c"] })])]),
   ("c", [("1", [("k", { dependencies := ["b"] })])])]

/-- Sorted index for `recipesBC`. -/
def ssBC : SortState :=
  ⟨[("a", [⟨"1", ["k"]⟩]), ("b", [⟨"1", ["k"]⟩]), ("c", [⟨"1", ["k"]⟩])], []⟩

/-- Acyclic catalog `a -> b` in cookbook `k`, for the termination
witness. -/
def recipesW : Catalog RecipeDef :=
  [("a", [("1", [("k", { dependencies := ["b"] })])]),
   ("b", [("1", [("k", {})])])]

/-- Sorted index for `recipesW`. -/
def ssW : SortState :=
  ⟨[("a", [⟨"1", ["k"]⟩]), ("b", [⟨"1", ["k"]⟩])], []⟩

/-- Version index with two versions of `foo` in cookbook `book`. -/
def idxFoo : SIndex := [("foo", [⟨"2.0.0", ["book"]⟩, ⟨"1.0.0", ["book"]⟩])]

/-- Tool catalog for the fallback analysis: preferred `t-3.20` does not
detect, while both alternatives `3.16` and `3.10` do. -/
def toolsTC : Catalog ToolDef :=
  [("t", [("3.20", [("k", { detects := false })]),
          ("3.16", [("k", { detects := true })]),
          ("3.10", [("k", { detects := true })])])]

/-- Sorted tool index for `toolsTC`, descending. -/
def stoolsTC : SIndex :=
  [("t", [⟨"3.20", ["k"]⟩, ⟨"3.16", ["k"]⟩, ⟨"3.10", ["k"]⟩])]

/-- An acyclic dependency map for the planner witness. -/
def depMapW : List (String × List String) :=
  [("app", ["lib"]), ("lib", [])]

/-- Cookbook map fixture for the config round-trip witness. -/
def cbsRT : CookbookMap :=
  [("x", { url := some "https://x", path := some "/p", trusted := some false })]

/-- Cookbook map with the single trusted cookbook `k`. -/
def cookbooksK : CookbookMap :=
  [("k", { url := some "https://k", trusted := some true })]

/-- Does probing an alternative version entry succeed?  This mirrors the
instantiation of lines 546-548: the entry's first-listed cookbook is used
to look the tool class up and its `detect()` outcome is returned. -/
def alt_detects (tools : Catalog ToolDef) (name : String) (alt : VEntry) : Bool :=
  match alt.cookbooks with
  | [] => false
  | acb :: _ =>
    match lookup3 tools name alt.version acb with
    | none => false
    | some td => td.detects

/-! ## Helper lemmas on the dictionary embedding -/

theorem lookupA_eq_none {β : Type} (l : List (String × β)) (k : String) :
    lookupA l k = none ↔ k ∉ l.map Prod.fst := by
  induction l with
  | nil => simp [lookupA]
  | cons p rest ih =>
    simp only [lookupA, List.map_cons, List.mem_cons]
    by_cases h : p.1 = k
    · simp [h]
    · rw [if_neg h, ih]
      constructor
      · intro hnm hor
        cases hor with
        | inl he => exact h he.symm
        | inr hm => exact hnm hm
      · intro hno hm
        exact hno (Or.inr hm)

theorem lookupA_updateA_self {β : Type} (l : List (String × β)) (k : String)
    (v : β) (h : (lookupA l k).isSome) :
    lookupA (updateA l k v) k = some v := by
  induction l with
  | nil => simp [lookupA] at h
  | cons p rest ih =>
    by_cases hp : p.1 = k
    · simp [updateA, lookupA, hp]
    · simp only [lookupA, hp, if_false] at h
      simpa [updateA, lookupA, hp] using ih h

theorem lookupA_append_of_none {β : Type} (l l2 : List (String × β)) (k : String)
    (h : lookupA l k = none) : lookupA (l ++ l2) k = lookupA l2 k := by
  induction l with
  | nil => simp
  | cons p rest ih =>
    by_cases hp : p.1 = k
    · simp [lookupA, hp] at h
    · simp only [lookupA, hp, if_false] at h
      simpa [lookupA, hp] using ih h

theorem lookupA_update_or_append_self {β : Type} (l : List (String × β))
    (k : String) (v : β) :
    lookupA (update_or_append l k v) k = some v := by
  unfold update_or_append
  by_cases h : (lookupA l k).isSome
  · simp [h, lookupA_updateA_self _ _ _ h]
  · have hn : lookupA l k = none := by
      cases hx : lookupA l k
      · rfl
      · simp [hx] at h
    simp [h, lookupA_append_of_none _ _ _ hn, lookupA]

theorem keys_updateA {β : Type} (l : List (String × β)) (k : String) (v : β) :
    (updateA l k v).map Prod.fst = l.map Prod.fst := by
  induction l with
  | nil => rfl
  | cons p rest ih =>
    by_cases hp : p.1 = k <;> simp [updateA, hp, List.map_cons] <;>
      simpa [updateA] using ih

theorem foldl_update_or_append_of_nodup {β : Type} :
    ∀ (l acc : List (String × β)), ((acc ++ l).map Prod.fst).Nodup →
      l.foldl (fun a p => update_or_append a p.1 p.2) acc = acc ++ l := by
  intro l
  induction l with
  | nil => intro acc _; simp
  | cons p rest ih =>
    intro acc hnd
    have hk : p.1 ∉ acc.map Prod.fst := by
      simp only [List.map_append, List.nodup_append] at hnd
      intro hmem
      exact hnd.2.2 hmem (by simp)
    have hnone : lookupA acc p.1 = none := (lookupA_eq_none acc p.1).mpr hk
    have hstep : update_or_append acc p.1 p.2 = acc ++ [p] := by
      simp [update_or_append, hnone]
    rw [List.foldl_cons, hstep]
    have hnd2 : (((acc ++ [p]) ++ rest).map Prod.fst).Nodup := by
      simpa [List.append_assoc] using hnd
    rw [ih (acc ++ [p]) hnd2, List.append_assoc]
    simp

theorem dict_update_nil (m : CookbookMap) (h : (m.map Prod.fst).Nodup) :
    dict_update [] m = m := by
  have := foldl_update_or_append_of_nodup m [] (by simpa using h)
  simpa [dict_update] using this

/-! ## C1: the trust gate -/

/-- C1: the claim states that executing a plan via `build_recipe` marks
every recipe from an untrusted cookbook failed, checking each recipe's own
pinned cookbook even when the caller passed a different, trusted cookbook.
The code violates this: the plan for `safe:app` contains `lib`, pinned to
the untrusted cookbook `evil`, yet the run checks only the caller's
trusted cookbook `safe` at the gate, passes it, and proceeds into the
build attempt (failing there with the unrelated uncaught `TypeError` of
line 311) — `lib` is never marked failed and no `UntrustedCookbook`
outcome is recorded: the results list stays empty. -/
theorem c1_trust_gate_ignores_recipe_cookbook :
    build_recipe recipesT [] cookbooksT ssT "app" "" "safe" [] false 9 =
      ⟨.error .typeError, [], []⟩ ∧
    (lookupA cookbooksT "evil").map CookbookEntry.trusted = some (some false) ∧
    (∃ ssOut, get_build_batches recipesT ssT (build_recipe_str "app" "" "safe") 9 =
      .ok ([["lib"], ["app"]], ssOut)) :=
  ⟨rfl, rfl, ⟨_, rfl⟩⟩

/-! ## C2: the version argument -/

/-- C2: the claim states that `build_recipe(recipe, version, cookbook)`
with a non-empty version resolves the root with the `==version`
constraint.  The code drops the constraint: the reference string built for
`("foo", "1.0.0", "book")` is `book:foo` (lines 485-488 overwrite the
`foo==1.0.0` assembled at line 483), and selecting `book:foo` against an
index holding versions `2.0.0` and `1.0.0` pins `2.0.0`, not the
requested `1.0.0` — although the constrained reference `book:foo==1.0.0`
would have pinned `1.0.0`. -/
theorem c2_version_constraint_dropped :
    build_recipe_str "foo" "1.0.0" "book" = "book:foo" ∧
    (∃ idx2, get_item_version "book:foo" idxFoo =
      .ok (⟨"foo", "2.0.0", "book"⟩, idx2)) ∧
    (∃ idx3, get_item_version "book:foo==1.0.0" idxFoo =
      .ok (⟨"foo", "1.0.0", "book"⟩, idx3)) ∧
    ("2.0.0" : String) ≠ "1.0.0" :=
  ⟨rfl, ⟨_, rfl⟩, ⟨_, rfl⟩, by decide⟩

/-! ## C3: failure propagation -/

/-- C3 counterexample: in the plan `[[lib], [app]]` from the untrusted
cookbook `u`, `lib` is marked failed at the trust gate and `app` is then
skipped — but no outcome record for `app` is appended to the results
(the claim states every later recipe has its record appended):
the run returns `False` with a single record, for `lib` only. -/
theorem c3_counterexample :
    build_recipe recipesF [] cookbooksF ssF "app" "" "u" [] false 9 =
      ⟨.ok false, [⟨"lib", .entry ⟨"1", ["u"]⟩, false⟩], []⟩ ∧
    ∀ r ∈ (build_recipe recipesF [] cookbooksF ssF "app" "" "u" [] false 9).results,
      r.name ≠ "app" :=
  ⟨rfl, by decide⟩

/-- Once the failure flag is set, the per-recipe loop only skips: the
state and the accumulators come back unchanged. -/
theorem exec_bundle_failure_skips (recipes : Catalog RecipeDef)
    (cookbooks : CookbookMap) (cookbook : String)
    (toolchain : List (String × ToolInst)) :
    ∀ (rs : List String) (ss : SortState) (res : List RecipeResult)
      (ev : List Event),
      exec_bundle recipes cookbooks cookbook toolchain false rs true ss res ev =
        .cont true ss res ev := by
  intro rs
  induction rs with
  | nil => intro ss res ev; rfl
  | cons r rs ih => intro ss res ev; simp [exec_bundle, ih]

/-- An aborted batch carries an uncaught exception, never a return
value. -/
theorem exec_bundle_abort_is_error (recipes : Catalog RecipeDef)
    (cookbooks : CookbookMap) (cookbook : String)
    (toolchain : List (String × ToolInst)) (dr : Bool) :
    ∀ (rs : List String) (failure : Bool) (ss : SortState)
      (res : List RecipeResult) (ev : List Event) (out),
      exec_bundle recipes cookbooks cookbook toolchain dr rs failure ss res ev =
        .abort out →
      ∃ e res2 ev2, out = (.error e, res2, ev2) := by
  intro rs
  induction rs with
  | nil => intro failure ss res ev out h; simp [exec_bundle] at h
  | cons r rs ih =>
    intro failure ss res ev out h
    rw [exec_bundle] at h
    by_cases hdr : dr = true
    · rw [if_pos hdr] at h
      cases hdt : dry_run_tools recipes ss r with
      | error e => simp only [hdt] at h; exact ⟨e, res, ev, by cases h; rfl⟩
      | ok ss2 => simp only [hdt] at h; exact ih failure ss2 res ev out h
    · rw [if_neg hdr] at h
      by_cases hf : failure = true
      · rw [if_pos hf] at h
        exact ih failure ss res ev out h
      · rw [if_neg hf] at h
        cases hl : lookupA ss.sorted_recipes r with
        | none => simp only [hl] at h; exact ⟨_, res, ev, by cases h; rfl⟩
        | some entries =>
          simp only [hl] at h
          cases entries with
          | nil => exact ⟨_, res, ev, by cases h; rfl⟩
          | cons e es =>
            cases hb : build_recipe_inner recipes cookbooks ss r (.entry e)
                cookbook toolchain with
            | error er => simp only [hb] at h; exact ⟨er, res, ev, by cases h; rfl⟩
            | ok p =>
              simp only [hb] at h
              exact ih _ ss _ _ out h

/-- A completed batch appends only records produced in it, and any
unsuccessful appended record (as well as an already-set flag) forces the
outgoing failure flag. -/
theorem exec_bundle_cont_spec (recipes : Catalog RecipeDef)
    (cookbooks : CookbookMap) (cookbook : String)
    (toolchain : List (String × ToolInst)) (dr : Bool) :
    ∀ (rs : List String) (failure : Bool) (ss : SortState)
      (res : List RecipeResult) (ev : List Event) (f2 ss2 res2 ev2),
      exec_bundle recipes cookbooks cookbook toolchain dr rs failure ss res ev =
        .cont f2 ss2 res2 ev2 →
      (∃ tail, res2 = res ++ tail ∧
        ∀ r ∈ tail, r.success = false → f2 = true) ∧
      (failure = true → f2 = true) := by
  intro rs
  induction rs with
  | nil =>
    intro failure ss res ev f2 ss2 res2 ev2 h
    rw [exec_bundle] at h
    cases h
    exact ⟨⟨[], by simp⟩, fun hf => hf⟩
  | cons r rs ih =>
    intro failure ss res ev f2 ss2 res2 ev2 h
    rw [exec_bundle] at h
    by_cases hdr : dr = true
    · rw [if_pos hdr] at h
      cases hdt : dry_run_tools recipes ss r with
      | error e => simp only [hdt] at h; cases h
      | ok ssn => simp only [hdt] at h; exact ih failure ssn res ev f2 ss2 res2 ev2 h
    · rw [if_neg hdr] at h
      by_cases hf : failure = true
      · rw [if_pos hf] at h
        exact ih failure ss res ev f2 ss2 res2 ev2 h
      · rw [if_neg hf] at h
        cases hl : lookupA ss.sorted_recipes r with
        | none => simp only [hl] at h; cases h
        | some entries =>
          simp only [hl] at h
          cases entries with
          | nil => cases h
          | cons e es =>
            cases hb : build_recipe_inner recipes cookbooks ss r (.entry e)
                cookbook toolchain with
            | error er => simp only [hb] at h; cases h
            | ok p =>
              simp only [hb] at h
              rcases ih _ ss _ _ f2 ss2 res2 ev2 h with ⟨⟨tail, htail, hlaw⟩, hmono⟩
              refine ⟨⟨p.1 :: tail, ?_, ?_⟩, fun hff => by simp [hf] at hff⟩
              · simpa [List.append_assoc] using htail
              · intro q hq hqs
                cases hq with
                | head =>
                  apply hmono
                  simp [hqs]
                | tail _ hq2 => exact hlaw q hq2 hqs

/-- The batch loop version of the previous two lemmas. -/
theorem exec_batches_spec (recipes : Catalog RecipeDef)
    (cookbooks : CookbookMap) (cookbook : String)
    (toolchain : List (String × ToolInst)) (dr : Bool) :
    ∀ (batches : List (List String)) (failure : Bool) (ss : SortState)
      (res : List RecipeResult) (ev : List Event) (f2 ss2 res2 ev2),
      exec_batches recipes cookbooks cookbook toolchain dr batches failure ss
          res ev = (.ok (f2, ss2), res2, ev2) →
      (∃ tail, res2 = res ++ tail ∧
        ∀ r ∈ tail, r.success = false → f2 = true) ∧
      (failure = true → f2 = true) := by
  intro batches
  induction batches with
  | nil =>
    intro failure ss res ev f2 ss2 res2 ev2 h
    rw [exec_batches] at h
    cases h
    exact ⟨⟨[], by simp⟩, fun hf => hf⟩
  | cons bundle rest ih =>
    intro failure ss res ev f2 ss2 res2 ev2 h
    rw [exec_batches] at h
    cases hb : exec_bundle recipes cookbooks cookbook toolchain dr bundle
        failure ss res ev with
    | abort out =>
      rw [hb] at h
      rcases exec_bundle_abort_is_error recipes cookbooks cookbook toolchain dr
        bundle failure ss res ev out hb with ⟨e, resx, evx, hout⟩
      rw [hout] at h
      cases h
    | cont fb ssb resb evb =>
      rw [hb] at h
      rcases exec_bundle_cont_spec recipes cookbooks cookbook toolchain dr
        bundle failure ss res ev fb ssb resb evb hb with ⟨⟨tailb, htb, hlawb⟩, hmonob⟩
      rcases ih fb ssb resb evb f2 ss2 res2 ev2 h with ⟨⟨tail2, ht2, hlaw2⟩, hmono2⟩
      refine ⟨⟨tailb ++ tail2, ?_, ?_⟩, fun hff => hmono2 (hmonob hff)⟩
      · rw [ht2, htb, List.append_assoc]
      · intro q hq hqs
        rcases List.mem_append.mp hq with hq1 | hq2
        · exact hmono2 (hlawb q hq1 hqs)
        · exact hlaw2 q hq2 hqs

/-- C3 (amended): in a non-dry-run `build_recipe`, once some recipe's
build fails, every later recipe in the plan is not executed: the driver
loop runs with the failure flag set and leaves the state, the results
accumulator and the event list untouched — no outcome record is appended
for a skipped recipe (only a warning is logged) — and the loop's failure
flag stays set, so `build_recipe` returns false; conversely any
unsuccessful record appended by a run forces the final flag. -/
theorem c3_failure_latch_and_skip :
    ∀ (recipes : Catalog RecipeDef) (cookbooks : CookbookMap)
      (cookbook : String) (toolchain : List (String × ToolInst))
      (batches : List (List String)) (ss : SortState)
      (results : List RecipeResult) (events : List Event),
      exec_batches recipes cookbooks cookbook toolchain false batches true ss
          results events = (.ok (true, ss), results, events) ∧
      (∀ f2 ss2 res2 ev2,
        exec_batches recipes cookbooks cookbook toolchain false batches false
            ss results events = (.ok (f2, ss2), res2, ev2) →
        ∀ r ∈ res2, r ∉ results → r.success = false → f2 = true) := by
  intro recipes cookbooks cookbook toolchain batches
  induction batches with
  | nil =>
    intro ss results events
    refine ⟨rfl, ?_⟩
    intro f2 ss2 res2 ev2 h r hr hnr _
    rw [exec_batches] at h
    cases h
    exact absurd hr hnr
  | cons bundle rest ih =>
    intro ss results events
    constructor
    · rw [exec_batches,
        exec_bundle_failure_skips recipes cookbooks cookbook toolchain bundle
          ss results events]
      exact (ih ss results events).1
    · intro f2 ss2 res2 ev2 h r hr hnr hrs
      rcases (exec_batches_spec recipes cookbooks cookbook toolchain false
        (bundle :: rest) false ss results events f2 ss2 res2 ev2 h) with
        ⟨⟨tail, htail, hlaw⟩, _⟩
      rw [htail] at hr
      rcases List.mem_append.mp hr with hr1 | hr2
      · exact absurd hr1 hnr
      · exact hlaw r hr2 hrs

/-- C3 witness: the skip law applied to a concrete plan: with the flag
already set, the two-batch plan `[[lib], [app]]` appends nothing and
returns with the flag still set. -/
theorem c3_failure_latch_and_skip_witness :
    exec_batches recipesF cookbooksF "u" [] false [["lib"], ["app"]] true ssF
        [] [] = (.ok (true, ssF), [], []) :=
  (c3_failure_latch_and_skip recipesF cookbooksF "u" [] [["lib"], ["app"]]
    ssF [] []).1

/-! ## C7: the reported cycle chain -/

/-- C7 counterexample: for the two-recipe cycle `a -> b -> a`, the claim
states the reported chain is `[a, b, a]`.  The code appends a name to the
chain only after the base-equality check, so the `CircularDependency`
raised when `a` is selected again carries the chain `[a, b]`. -/
theorem c7_chain_counterexample :
    identify_build_recipes recipesAB 9 ssAB "k:a" [] =
      .error (.circular ["a", "b"]) ∧
    (["a", "b"] : List String) ≠ ["a", "b", "a"] :=
  ⟨rfl, by decide⟩

/-- C7 (amended): for the two-recipe cycle `a -> b -> a`, building `a`
signals `CircularDependency` before any host process is spawned, and the
chain reported with the error is `[a, b]` (the closing occurrence of `a`
is checked before it is appended, so it is not part of the chain). -/
theorem c7_cycle_detected_with_chain_ab :
    build_recipe recipesAB [] cookbooksK ssAB "a" "" "k" [] false 9 =
      ⟨.error (.circular ["a", "b"]), [], []⟩ :=
  rfl

/-! ## C4: tool fallback order -/

/-- C4 counterexample: the preferred `t-3.20` does not detect; both
alternatives `3.16` (probed first) and `3.10` detect.  The claim states
the first detecting version is recorded and later, lower versions are
neither probed nor allowed to overwrite it — but the loop has no break,
and the toolchain records `3.10`, the last detecting version, not
`3.16`. -/
theorem c4_counterexample :
    (∃ ssOut, check_tools toolsTC [⟨"t", "3.20", "k"⟩] ⟨[], stoolsTC⟩ =
      .ok ([("t", { version := "3.10", cookbook := "k", detects := true })],
           ssOut)) ∧
    ((lookupA stoolsTC "t").getD []).tail.filter
        (fun a => alt_detects toolsTC "t" a) =
      [⟨"3.16", ["k"]⟩, ⟨"3.10", ["k"]⟩] ∧
    ("3.10" : String) ≠ "3.16" :=
  ⟨⟨_, rfl⟩, rfl, by decide⟩

/-- A run of the alternatives loop over versions none of which detects
changes nothing. -/
theorem check_tool_alternatives_no_detect (tools : Catalog ToolDef)
    (name : String) :
    ∀ (alts : List VEntry) (found : Bool) (tc : List (String × ToolInst))
      (st : SIndex) (out),
      alts.filter (fun a => alt_detects tools name a) = [] →
      check_tool_alternatives tools name alts found tc st = .ok out →
      out = (found, tc, st) := by
  intro alts
  induction alts with
  | nil =>
    intro found tc st out _ hrun
    rw [check_tool_alternatives] at hrun
    cases hrun
    rfl
  | cons a rest ih =>
    intro found tc st out hfil hrun
    rw [List.filter_cons] at hfil
    rw [check_tool_alternatives] at hrun
    cases ha : a.cookbooks with
    | nil => simp only [ha] at hrun; cases hrun
    | cons acb cbs =>
      simp only [ha] at hrun
      cases hl3 : lookup3 tools name a.version acb with
      | none => simp only [hl3] at hrun; cases hrun
      | some td =>
        simp only [hl3] at hrun
        have hdet : alt_detects tools name a = td.detects := by
          simp [alt_detects, ha, hl3]
        by_cases hd : td.detects = true
        · rw [hdet, hd] at hfil
          simp at hfil
        · rw [Bool.not_eq_true] at hd
          rw [hd] at hrun
          simp only [Bool.false_eq_true, if_false] at hrun
          rw [hdet, hd] at hfil
          simp only [Bool.false_eq_true, if_false] at hfil
          exact ih found tc st out hfil hrun

/-- C4 (amended): the alternative-version loop probes every remaining
version in descending order with no break: each detecting version
overwrites the toolchain entry (and re-pins the index), so when any
alternative detects, the recorded instance is the one of the last
(lowest) detecting version, and the tool is marked found. -/
theorem c4_all_alternatives_probed_last_wins :
    ∀ (tools : Catalog ToolDef) (name : String) (alts : List VEntry)
      (found : Bool) (tc : List (String × ToolInst)) (st : SIndex) (out),
      check_tool_alternatives tools name alts found tc st = .ok out →
      ∀ alt,
        (alts.filter (fun a => alt_detects tools name a)).getLast? = some alt →
        out.1 = true ∧
        lookupA out.2.1 name =
          some ⟨alt.version, alt.cookbooks.headD "", true⟩ := by
  intro tools name alts
  induction alts with
  | nil =>
    intro found tc st out _ alt hlast
    simp [List.filter_nil] at hlast
  | cons a rest ih =>
    intro found tc st out hrun alt hlast
    rw [List.filter_cons] at hlast
    rw [check_tool_alternatives] at hrun
    cases ha : a.cookbooks with
    | nil => simp only [ha] at hrun; cases hrun
    | cons acb cbs =>
      simp only [ha] at hrun
      cases hl3 : lookup3 tools name a.version acb with
      | none => simp only [hl3] at hrun; cases hrun
      | some td =>
        simp only [hl3] at hrun
        have hdet : alt_detects tools name a = td.detects := by
          simp [alt_detects, ha, hl3]
        by_cases hd : td.detects = true
        · rw [hd] at hrun
          simp only [if_true] at hrun
          cases hpin : get_item_version (acb ++ ":" ++ name ++ "=" ++ a.version)
              st with
          | error e => simp only [hpin] at hrun; cases hrun
          | ok p =>
            simp only [hpin] at hrun
            rw [hdet, hd] at hlast
            simp only [if_true] at hlast
            cases hfr : rest.filter (fun a => alt_detects tools name a) with
            | nil =>
              rw [hfr, List.getLast?_singleton] at hlast
              cases hlast
              have hout := check_tool_alternatives_no_detect tools name rest
                true _ _ out hfr hrun
              rw [hout]
              refine ⟨rfl, ?_⟩
              show lookupA (update_or_append tc name _) name = _
              rw [lookupA_update_or_append_self, ha]
              rfl
            | cons b bs =>
              rw [hfr, List.getLast?_cons_cons, ← hfr] at hlast
              exact ih true _ _ out hrun alt hlast
        · rw [Bool.not_eq_true] at hd
          rw [hd] at hrun
          simp only [Bool.false_eq_true, if_false] at hrun
          rw [hdet, hd] at hlast
          simp only [Bool.false_eq_true, if_false] at hlast
          exact ih found tc st out hrun alt hlast

/-- C4 witness: running the alternatives loop of tool `t` over the
concrete detecting versions `3.16` and `3.10` marks the tool found and
records the instance of `3.10`, the last detecting version. -/
theorem c4_last_wins_witness :
    ∃ out, check_tool_alternatives toolsTC "t"
        [⟨"3.16", ["k"]⟩, ⟨"3.10", ["k"]⟩] false [] stoolsTC = .ok out ∧
      out.1 = true ∧
      lookupA out.2.1 "t" =
        some { version := "3.10", cookbook := "k", detects := true } := by
  obtain ⟨h1, h2⟩ := c4_all_alternatives_probed_last_wins toolsTC "t"
    [⟨"3.16", ["k"]⟩, ⟨"3.10", ["k"]⟩] false [] stoolsTC _ rfl
    ⟨"3.10", ["k"]⟩ rfl
  exact ⟨_, rfl, h1, h2⟩

/-! ## C5: the batch planner -/

theorem lookupA_mem {β : Type} :
    ∀ (l : List (String × β)) (k : String) (v : β),
      lookupA l k = some v → (k, v) ∈ l := by
  intro l
  induction l with
  | nil => intro k v h; simp [lookupA] at h
  | cons p rest ih =>
    intro k v h
    rw [lookupA] at h
    by_cases hp : p.1 = k
    · rw [if_pos hp] at h
      cases h
      have hpe : p = (k, p.2) := by
        cases p
        simp_all
      rw [← hpe]
      exact List.mem_cons_self _ _
    · rw [if_neg hp] at h
      exact List.mem_cons_of_mem _ (ih k v h)

theorem lookupA_of_mem_nodup {β : Type} :
    ∀ (l : List (String × β)) (k : String) (v : β),
      (k, v) ∈ l → (l.map Prod.fst).Nodup → lookupA l k = some v := by
  intro l
  induction l with
  | nil => intro k v h _; simp at h
  | cons p rest ih =>
    intro k v h hnd
    rw [List.map_cons, List.nodup_cons] at hnd
    cases h with
    | head => simp [lookupA]
    | tail _ hm =>
      have hk : k ∈ rest.map Prod.fst := List.mem_map.mpr ⟨(k, v), hm, rfl⟩
      have hp : p.1 ≠ k := fun he => hnd.1 (he ▸ hk)
      rw [lookupA, if_neg hp]
      exact ih k v hm hnd.2

theorem mem_ready_set (m : List (String × List String)) (r : String) :
    r ∈ ready_set m ↔ (r, ([] : List String)) ∈ m := by
  unfold ready_set
  constructor
  · intro h
    rcases List.mem_map.mp h with ⟨p, hp, hp1⟩
    rcases List.mem_filter.mp hp with ⟨hpm, hpd⟩
    have : p.2 = [] := of_decide_eq_true hpd
    have : p = (r, []) := by
      cases p
      simp_all
    rw [← this]
    exact hpm
  · intro h
    exact List.mem_map.mpr ⟨(r, []), List.mem_filter.mpr ⟨h, by simp⟩, rfl⟩

theorem depsOf_of_ready (m : List (String × List String)) (r : String)
    (hnd : NodupKeys m) (h : r ∈ ready_set m) : depsOf m r = [] := by
  have hm := (mem_ready_set m r).mp h
  unfold depsOf
  rw [lookupA_of_mem_nodup m r [] hm hnd]
  rfl

theorem keys_remove_ready (m : List (String × List String))
    (ready : List String) :
    depKeys (remove_ready m ready) =
      (depKeys m).filter (fun k => !decide (k ∈ ready)) := by
  unfold depKeys remove_ready
  induction m with
  | nil => rfl
  | cons p rest ih =>
    by_cases hp : p.1 ∈ ready <;> simp [List.filter_cons, hp, ih]

theorem mem_keys_remove_ready (m : List (String × List String))
    (ready : List String) (x : String) :
    x ∈ depKeys (remove_ready m ready) ↔ x ∈ depKeys m ∧ x ∉ ready := by
  rw [keys_remove_ready, List.mem_filter]
  simp

theorem nodup_remove_ready (m : List (String × List String))
    (ready : List String) (hnd : NodupKeys m) :
    NodupKeys (remove_ready m ready) := by
  unfold NodupKeys
  rw [keys_remove_ready]
  exact List.Nodup.filter _ hnd

theorem mem_remove_ready (m : List (String × List String))
    (ready : List String) (p : String × List String) :
    p ∈ remove_ready m ready ↔
      ∃ q ∈ m, q.1 ∉ ready ∧
        p = (q.1, q.2.filter (fun d => !decide (d ∈ ready))) := by
  unfold remove_ready
  constructor
  · intro h
    rcases List.mem_map.mp h with ⟨q, hq, hqe⟩
    rcases List.mem_filter.mp hq with ⟨hqm, hqr⟩
    refine ⟨q, hqm, ?_, hqe.symm⟩
    simpa using hqr
  · rintro ⟨q, hqm, hqr, hpe⟩
    refine List.mem_map.mpr ⟨q, List.mem_filter.mpr ⟨hqm, by simpa using hqr⟩, hpe.symm⟩

theorem depsOf_remove_ready (m : List (String × List String))
    (ready : List String) (x : String) (hnd : NodupKeys m)
    (hx : x ∈ depKeys (remove_ready m ready)) :
    depsOf (remove_ready m ready) x =
      (depsOf m x).filter (fun d => !decide (d ∈ ready)) := by
  rcases List.mem_map.mp hx with ⟨p, hp, hp1⟩
  rcases (mem_remove_ready m ready p).mp hp with ⟨q, hqm, hqr, hpe⟩
  have hq1 : q.1 = x := by rw [hpe] at hp1; exact hp1
  have hqm2 : (q.1, q.2) ∈ m := by rw [Prod.mk.eta]; exact hqm
  have hlook : lookupA m x = some q.2 := by
    rw [← hq1]
    exact lookupA_of_mem_nodup m q.1 q.2 hqm2 hnd
  have hmem2 : (x, q.2.filter (fun d => !decide (d ∈ ready))) ∈
      remove_ready m ready := by
    rw [← hq1, ← hpe]
    exact hp
  have hlook2 : lookupA (remove_ready m ready) x =
      some (q.2.filter (fun d => !decide (d ∈ ready))) :=
    lookupA_of_mem_nodup _ x _ hmem2 (nodup_remove_ready m ready hnd)
  unfold depsOf
  rw [hlook, hlook2]
  rfl

theorem remove_ready_length_lt (m : List (String × List String))
    (h : ready_set m ≠ []) :
    (remove_ready m (ready_set m)).length < m.length := by
  unfold remove_ready
  rw [List.length_map]
  rcases List.exists_mem_of_ne_nil _ h with ⟨r, hr⟩
  have hm := (mem_ready_set m r).mp hr
  refine List.length_filter_lt_length_iff_exists.mpr ⟨(r, []), hm, ?_⟩
  simp [hr]

theorem go_batch_keys :
    ∀ (fuel : Nat) (m : List (String × List String)) (bs : List (List String)),
      get_build_batches_go fuel m = .ok bs →
      ∀ b ∈ bs, ∀ x ∈ b, x ∈ depKeys m := by
  intro fuel
  induction fuel with
  | zero =>
    intro m bs h b hb x hx
    rw [get_build_batches_go] at h
    by_cases hm : m = []
    · rw [if_pos hm] at h
      cases h
      simp at hb
    · rw [if_neg hm] at h
      cases h
  | succ f ih =>
    intro m bs h b hb x hx
    rw [get_build_batches_go] at h
    by_cases hm : m = []
    · rw [if_pos hm] at h
      cases h
      simp at hb
    · rw [if_neg hm] at h
      by_cases hr : ready_set m = []
      · rw [if_pos hr] at h
        cases h
      · rw [if_neg hr] at h
        cases hrec : get_build_batches_go f (remove_ready m (ready_set m)) with
        | error e => rw [hrec] at h; cases h
        | ok rest =>
          rw [hrec] at h
          cases h
          cases hb with
          | head =>
            have := (mem_ready_set m x).mp hx
            exact List.mem_map.mpr ⟨(x, []), this, rfl⟩
          | tail _ hb2 =>
            have := ih _ rest hrec b hb2 x hx
            exact ((mem_keys_remove_ready m (ready_set m) x).mp this).1

theorem go_sound :
    ∀ (fuel : Nat) (m : List (String × List String)) (bs : List (List String)),
      NodupKeys m → get_build_batches_go fuel m = .ok bs →
      SoundBatches m bs := by
  intro fuel
  induction fuel with
  | zero =>
    intro m bs _ h
    rw [get_build_batches_go] at h
    by_cases hm : m = []
    · rw [if_pos hm] at h
      cases h
      intro k hk
      simp at hk
    · rw [if_neg hm] at h
      cases h
  | succ f ih =>
    intro m bs hnd h
    rw [get_build_batches_go] at h
    by_cases hm : m = []
    · rw [if_pos hm] at h
      cases h
      intro k hk
      simp at hk
    · rw [if_neg hm] at h
      by_cases hr : ready_set m = []
      · rw [if_pos hr] at h
        cases h
      · rw [if_neg hr] at h
        cases hrec : get_build_batches_go f (remove_ready m (ready_set m)) with
        | error e => rw [hrec] at h; cases h
        | ok rest =>
          rw [hrec] at h
          cases h
          intro k hk x hx d hd
          cases k with
          | zero =>
            rw [depsOf_of_ready m x hnd hx] at hd
            simp at hd
          | succ j =>
            have hj : j < rest.length := Nat.lt_of_succ_lt_succ hk
            have hxk : x ∈ depKeys (remove_ready m (ready_set m)) :=
              go_batch_keys f _ rest hrec _ (rest.get_mem j hj) x hx
            by_cases hdr : d ∈ ready_set m
            · refine ⟨0, Nat.succ_pos _, Nat.succ_pos _, hdr⟩
            · have hsub := ih _ rest (nodup_remove_ready m _ hnd) hrec j hj x hx d
              rw [depsOf_remove_ready m _ x hnd hxk] at hsub
              have hd2 : d ∈ (depsOf m x).filter (fun d => !decide (d ∈ ready_set m)) :=
                List.mem_filter.mpr ⟨hd, by simpa using hdr⟩
              rcases hsub hd2 with ⟨i, hi, hik, hmem⟩
              exact ⟨i + 1, Nat.succ_lt_succ hi, Nat.succ_lt_succ hik, hmem⟩

theorem exists_dup_decomp {α : Type} [DecidableEq α] :
    ∀ (l : List α), ¬ l.Nodup →
      ∃ (l1 : List α) (a : α) (l2 l3 : List α),
        l = l1 ++ a :: l2 ++ a :: l3 := by
  intro l
  induction l with
  | nil => intro h; exact absurd List.nodup_nil h
  | cons x xs ih =>
    intro h
    by_cases hx : x ∈ xs
    · rcases List.append_of_mem hx with ⟨s, t, hst⟩
      exact ⟨[], x, s, t, by rw [hst]; rfl⟩
    · have : ¬ xs.Nodup := by
        intro hn
        exact h (List.nodup_cons.mpr ⟨hx, hn⟩)
      rcases ih this with ⟨l1, a, l2, l3, he⟩
      exact ⟨x :: l1, a, l2, l3, by rw [he]; rfl⟩

theorem chain_flip_walk (m : List (String × List String))
    (hstep : ∀ x ∈ depKeys m, ∃ d, DepEdge m x d ∧ d ∈ depKeys m)
    (hne : depKeys m ≠ []) :
    ∀ n : Nat, ∃ l : List String, l.length = n ∧ (∀ y ∈ l, y ∈ depKeys m) ∧
      List.Chain' (fun a b => DepEdge m b a) l := by
  intro n
  induction n with
  | zero => exact ⟨[], rfl, by simp, List.chain'_nil⟩
  | succ k ih =>
    rcases ih with ⟨l, hlen, hmem, hch⟩
    cases l with
    | nil =>
      rcases List.exists_mem_of_ne_nil _ hne with ⟨x, hx⟩
      refine ⟨[x], ?_, by simpa using hx, List.chain'_singleton x⟩
      simp only [List.length_nil] at hlen
      simp only [List.length_singleton]
      omega
    | cons h t =>
      rcases hstep h (hmem h (by simp)) with ⟨d, hed, hdk⟩
      refine ⟨d :: h :: t, by simpa using hlen, ?_, ?_⟩
      · intro y hy
        cases hy with
        | head => exact hdk
        | tail _ hy2 => exact hmem y hy2
      · rw [List.chain'_cons]
        exact ⟨hed, hch⟩

theorem cycle_of_stuck (m : List (String × List String))
    (hnd : NodupKeys m) (hne : m ≠ []) (hclosed : ClosedDeps m)
    (hstuck : ready_set m = []) : HasDepCycle m := by
  have hkne : depKeys m ≠ [] := by
    intro h
    apply hne
    cases m with
    | nil => rfl
    | cons p rest => simp [depKeys] at h
  have hstep : ∀ x ∈ depKeys m, ∃ d, DepEdge m x d ∧ d ∈ depKeys m := by
    intro x hx
    rcases List.mem_map.mp hx with ⟨p, hpm, hp1⟩
    have hpm2 : (p.1, p.2) ∈ m := by rw [Prod.mk.eta]; exact hpm
    have hdep : depsOf m x = p.2 := by
      unfold depsOf
      rw [← hp1, lookupA_of_mem_nodup m p.1 p.2 hpm2 hnd]
      rfl
    cases hp2 : p.2 with
    | nil =>
      exfalso
      have : p.1 ∈ ready_set m := by
        rw [mem_ready_set, ← hp2]
        exact hpm2
      rw [hstuck] at this
      simp at this
    | cons d ds =>
      refine ⟨d, ?_, ?_⟩
      · unfold DepEdge
        rw [hdep, hp2]
        simp
      · exact hclosed p hpm d (by rw [hp2]; simp)
  rcases chain_flip_walk m hstep hkne ((depKeys m).length + 1) with
    ⟨l, hlen, hmem, hch⟩
  have hnodup : ¬ l.Nodup := by
    intro hnl
    have hsub : l ⊆ depKeys m := fun y hy => hmem y hy
    have := (hnl.subperm hsub).length_le
    omega
  rcases exists_dup_decomp l hnodup with ⟨l1, a, l2, l3, hdecomp⟩
  have hinf : (a :: (l2 ++ [a])) <:+: l := by
    refine ⟨l1, l3, ?_⟩
    rw [hdecomp]
    simp
  have hch2 : List.Chain' (fun a b => DepEdge m b a) (a :: (l2 ++ [a])) :=
    hch.infix hinf
  refine ⟨a, l2.reverse, ?_⟩
  have hrev : (a :: (l2 ++ [a])).reverse = a :: (l2.reverse ++ [a]) := by
    simp
  have := (List.chain'_reverse.mpr ?_ :
    List.Chain' (DepEdge m) (a :: (l2 ++ [a])).reverse)
  · rw [hrev] at this
    exact this
  · exact hch2

theorem edge_remove_ready (m : List (String × List String))
    (ready : List String) (hnd : NodupKeys m) (x d : String)
    (h : DepEdge (remove_ready m ready) x d) : DepEdge m x d := by
  unfold DepEdge depsOf at h ⊢
  cases hl : lookupA (remove_ready m ready) x with
  | none => rw [hl] at h; simp at h
  | some ds =>
    rw [hl] at h
    simp only [Option.getD_some] at h
    rcases (mem_remove_ready m ready _).mp (lookupA_mem _ x ds hl) with
      ⟨q, hqm, _, hqe⟩
    have hq1 : x = q.1 := congrArg Prod.fst hqe
    have hds : ds = q.2.filter (fun d => !decide (d ∈ ready)) :=
      congrArg Prod.snd hqe
    have hqm2 : (q.1, q.2) ∈ m := by rw [Prod.mk.eta]; exact hqm
    have hlook : lookupA m x = some q.2 := by
      rw [hq1]
      exact lookupA_of_mem_nodup m q.1 q.2 hqm2 hnd
    rw [hlook]
    simp only [Option.getD_some]
    rw [hds] at h
    exact (List.mem_filter.mp h).1

theorem go_complete :
    ∀ (n : Nat) (m : List (String × List String)), m.length ≤ n →
      NodupKeys m → ClosedDeps m → AcyclicDeps m →
      ∀ fuel, m.length < fuel →
      ∃ bs, get_build_batches_go fuel m = .ok bs := by
  intro n
  induction n with
  | zero =>
    intro m hlen _ _ _ fuel hfuel
    have hm : m = [] := List.length_eq_zero.mp (Nat.le_zero.mp hlen)
    cases fuel with
    | zero => omega
    | succ f => exact ⟨[], by rw [get_build_batches_go, if_pos hm]⟩
  | succ k ih =>
    intro m hlen hnd hclosed hacyc fuel hfuel
    cases fuel with
    | zero => omega
    | succ f =>
      by_cases hm : m = []
      · exact ⟨[], by rw [get_build_batches_go, if_pos hm]⟩
      · have hr : ready_set m ≠ [] := by
          intro hstuck
          exact hacyc (cycle_of_stuck m hnd hm hclosed hstuck)
        have hlt := remove_ready_length_lt m hr
        have hnd2 := nodup_remove_ready m (ready_set m) hnd
        have hclosed2 : ClosedDeps (remove_ready m (ready_set m)) := by
          intro p hp d hd
          rcases (mem_remove_ready m _ p).mp hp with ⟨q, hqm, hqr, hqe⟩
          have hp2 : p.2 = q.2.filter (fun d => !decide (d ∈ ready_set m)) := by
            rw [hqe]
          rw [hp2] at hd
          rcases List.mem_filter.mp hd with ⟨hdq, hdr⟩
          rw [mem_keys_remove_ready]
          exact ⟨hclosed q hqm d hdq, by simpa using hdr⟩
        have hacyc2 : AcyclicDeps (remove_ready m (ready_set m)) := by
          rintro ⟨x, l, hch⟩
          exact hacyc ⟨x, l, List.Chain'.imp
            (fun a b hab => edge_remove_ready m (ready_set m) hnd a b hab) hch⟩
        rcases ih (remove_ready m (ready_set m)) (by omega) hnd2 hclosed2
          hacyc2 f (by omega) with ⟨rest, hrest⟩
        refine ⟨ready_set m :: rest, ?_⟩
        rw [get_build_batches_go, if_neg hm, if_neg hr, hrest]

/-- C5: for every dependency map with distinct keys handed to the batching
loop of `__get_build_batches`, (a) every batch list the loop produces is
layered: each direct dependency of a recipe of batch `k` lies in a batch
`i < k`; and (b) when the recorded dependencies stay within the map's
keys (as they do for a resolved plan) and the dependency graph is acyclic,
the loop produces such a batch list rather than signalling circular
dependencies. -/
theorem c5_batches_sound_and_complete :
    ∀ (m : List (String × List String)), NodupKeys m →
      (∀ bs, get_build_batches_loop m = .ok bs → SoundBatches m bs) ∧
      (ClosedDeps m → AcyclicDeps m →
        ∃ bs, get_build_batches_loop m = .ok bs) := by
  intro m hnd
  constructor
  · intro bs h
    exact go_sound (m.length + 1) m bs hnd h
  · intro hclosed hacyc
    exact go_complete m.length m (Nat.le_refl _) hnd hclosed hacyc
      (m.length + 1) (Nat.lt_succ_self _)

/-- A rank function decreasing along every recorded dependency certifies
acyclicity of a dependency map. -/
theorem acyclic_of_rank (m : List (String × List String))
    (rank : String → Nat) (h : RankOkMap m rank) :
    AcyclicDeps m := by
  have hedge : ∀ x d, DepEdge m x d → rank d < rank x := by
    intro x d he
    unfold DepEdge depsOf at he
    cases hl : lookupA m x with
    | none => rw [hl] at he; simp at he
    | some ds =>
      rw [hl] at he
      simp only [Option.getD_some] at he
      exact h (x, ds) (lookupA_mem m x ds hl) d he
  have hchain : ∀ (l : List String) (x : String),
      List.Chain' (DepEdge m) (x :: l) → ∀ y ∈ l, rank y < rank x := by
    intro l
    induction l with
    | nil => intro x _ y hy; simp at hy
    | cons b t ih =>
      intro x hch y hy
      rw [List.chain'_cons] at hch
      cases hy with
      | head => exact hedge x b hch.1
      | tail _ hy2 => exact Nat.lt_trans (ih b hch.2 y hy2) (hedge x b hch.1)
  rintro ⟨x, l, hch⟩
  have : rank x < rank x :=
    hchain (l ++ [x]) x hch x (by simp)
  omega

/-- C5 witness: the concrete acyclic map `[("app", ["lib"]), ("lib", [])]`
satisfies the hypotheses, the loop produces a batch list for it, and that
list is layered. -/
theorem c5_batches_witness :
    NodupKeys depMapW ∧ ClosedDeps depMapW ∧ AcyclicDeps depMapW ∧
    ∃ bs, get_build_batches_loop depMapW = .ok bs ∧
      SoundBatches depMapW bs := by
  have hnd : NodupKeys depMapW := by unfold NodupKeys; decide
  have hclosed : ClosedDeps depMapW := by unfold ClosedDeps; decide
  have hacyc : AcyclicDeps depMapW :=
    acyclic_of_rank depMapW (fun n => if n = "app" then 1 else 0)
      (by unfold RankOkMap; decide)
  rcases (c5_batches_sound_and_complete depMapW hnd).2 hclosed hacyc with
    ⟨bs, hbs⟩
  exact ⟨hnd, hclosed, hacyc,
    ⟨bs, hbs, (c5_batches_sound_and_complete depMapW hnd).1 bs hbs⟩⟩

/-! ## C6: resolver termination and cycle detection -/

theorem mem_of_mem_erase_first {α : Type} [DecidableEq α] :
    ∀ (l : List α) (a x : α), x ∈ erase_first l a → x ∈ l := by
  intro l
  induction l with
  | nil => intro a x h; simp [erase_first] at h
  | cons y ys ih =>
    intro a x h
    rw [erase_first] at h
    by_cases hy : y = a
    · rw [if_pos hy] at h
      exact List.mem_cons_of_mem _ h
    · rw [if_neg hy] at h
      cases h with
      | head => exact List.mem_cons_self _ _
      | tail _ h2 => exact List.mem_cons_of_mem _ (ih a x h2)

theorem mem_updateA {β : Type} (l : List (String × β)) (k : String) (v : β)
    (p : String × β) (h : p ∈ updateA l k v) : p = (k, v) ∨ p ∈ l := by
  unfold updateA at h
  rcases List.mem_map.mp h with ⟨q, hq, hqe⟩
  by_cases hqk : q.1 = k
  · rw [if_pos hqk] at hqe
    exact Or.inl hqe.symm
  · rw [if_neg hqk] at hqe
    exact Or.inr (hqe ▸ hq)

theorem mem_all_cookbooks (idx : SIndex) (p : String × List VEntry)
    (e : VEntry) (c : String) (hp : p ∈ idx) (he : e ∈ p.2)
    (hc : c ∈ e.cookbooks) : c ∈ all_cookbooks idx := by
  unfold all_cookbooks
  exact List.mem_flatMap.mpr ⟨p, hp, List.mem_flatMap.mpr ⟨e, he, hc⟩⟩

theorem mem_all_cookbooks_elim (idx : SIndex) (c : String)
    (h : c ∈ all_cookbooks idx) :
    ∃ p ∈ idx, ∃ e ∈ p.2, c ∈ e.cookbooks := by
  unfold all_cookbooks at h
  rcases List.mem_flatMap.mp h with ⟨p, hp, hin⟩
  rcases List.mem_flatMap.mp hin with ⟨e, he, hc⟩
  exact ⟨p, hp, e, he, hc⟩

theorem select_post (idx : SIndex) (name : String) (entries : List VEntry)
    (e : VEntry) (selCb : String)
    (hl : lookupA idx name = some entries) (hee : e ∈ entries)
    (hscb : selCb ∈ e.cookbooks) (hwf : WFIndex idx) :
    WFIndex (updateA idx name
      ({ e with cookbooks := selCb :: erase_first e.cookbooks selCb } ::
        erase_first entries e)) ∧
    (∀ c ∈ all_cookbooks (updateA idx name
      ({ e with cookbooks := selCb :: erase_first e.cookbooks selCb } ::
        erase_first entries e)), c ∈ all_cookbooks idx) := by
  have hidxm : (name, entries) ∈ idx := lookupA_mem idx name entries hl
  constructor
  · intro p hp e2 he2
    cases mem_updateA idx name _ p hp with
    | inr hpm => exact hwf p hpm e2 he2
    | inl hpe =>
      rw [hpe] at he2
      cases he2 with
      | head => simp
      | tail _ h2 =>
        exact hwf (name, entries) hidxm e2 (mem_of_mem_erase_first _ _ _ h2)
  · intro c hc
    rcases mem_all_cookbooks_elim _ c hc with ⟨p, hp, e2, he2, hcc⟩
    cases mem_updateA idx name _ p hp with
    | inr hpm => exact mem_all_cookbooks idx p e2 c hpm he2 hcc
    | inl hpe =>
      rw [hpe] at he2
      cases he2 with
      | head =>
        cases hcc with
        | head => exact mem_all_cookbooks idx (name, entries) e _ hidxm hee hscb
        | tail _ h2 =>
          exact mem_all_cookbooks idx (name, entries) e _ hidxm hee
            (mem_of_mem_erase_first _ _ _ h2)
      | tail _ h2 =>
        exact mem_all_cookbooks idx (name, entries) e2 c hidxm
          (mem_of_mem_erase_first _ _ _ h2) hcc

theorem select_entry_spec (r : RefParts) (idx : SIndex) (nvc : NVC)
    (idx2 : SIndex) (h : select_entry r idx = .ok (nvc, idx2))
    (hwf : WFIndex idx) :
    nvc.name = r.name ∧
    nvc.cookbook ∈ all_cookbooks idx ∧
    WFIndex idx2 ∧
    (∀ c ∈ all_cookbooks idx2, c ∈ all_cookbooks idx) := by
  unfold select_entry at h
  cases hl : lookupA idx r.name with
  | none =>
    simp only [hl] at h
    exact Except.noConfusion h
  | some entries =>
    simp only [hl] at h
    cases hf : entries.filter (entry_matches r) with
    | nil =>
      simp only [hf] at h
      exact Except.noConfusion h
    | cons e es =>
      simp only [hf] at h
      have hef : e ∈ entries.filter (entry_matches r) := by
        rw [hf]
        exact List.mem_cons_self _ _
      have hee : e ∈ entries := List.mem_of_mem_filter hef
      have hem : entry_matches r e = true := List.of_mem_filter hef
      have hidxm : (r.name, entries) ∈ idx := lookupA_mem idx r.name entries hl
      rw [Except.ok.injEq, Prod.mk.injEq] at h
      obtain ⟨h1, h2⟩ := h
      subst h1
      subst h2
      have hscb : (NVC.cookbook ⟨r.name, e.version,
          match r.cookbook with
          | some cb => cb
          | none => e.cookbooks.headD ""⟩) ∈ e.cookbooks := by
        cases hcb : r.cookbook with
        | some cb =>
          simp only [hcb]
          unfold entry_matches at hem
          rw [hcb, Bool.and_eq_true] at hem
          exact of_decide_eq_true hem.2
        | none =>
          simp only [hcb]
          cases hck : e.cookbooks with
          | nil => exact absurd hck (hwf _ hidxm e hee)
          | cons c2 cs => simp [hck]
      refine ⟨rfl, ?_, ?_, ?_⟩
      · exact mem_all_cookbooks idx (r.name, entries) e _ hidxm hee hscb
      · exact (select_post idx r.name entries e _ hl hee hscb hwf).1
      · exact (select_post idx r.name entries e _ hl hee hscb hwf).2

theorem get_recipe_version_spec (recipes : Catalog RecipeDef) (ss : SortState)
    (item : String) (nvc : NVC) (ss1 : SortState)
    (h : get_recipe_version recipes ss item = .ok (nvc, ss1))
    (hwf : WFIndex ss.sorted_recipes) :
    nvc.name = refName item ∧
    nvc.cookbook ∈ all_cookbooks ss.sorted_recipes ∧
    WFIndex ss1.sorted_recipes ∧
    (∀ c ∈ all_cookbooks ss1.sorted_recipes,
      c ∈ all_cookbooks ss.sorted_recipes) := by
  unfold get_recipe_version at h
  cases hgiv : get_item_version item ss.sorted_recipes with
  | error e =>
    simp only [hgiv] at h
    exact Except.noConfusion h
  | ok p =>
    obtain ⟨nvc0, sr2⟩ := p
    simp only [hgiv] at h
    cases hpr : prune_tools_pass recipes sr2 ss.sorted_tools with
    | error e =>
      simp only [hpr] at h
      exact Except.noConfusion h
    | ok st2 =>
      simp only [hpr] at h
      rw [Except.ok.injEq] at h
      have hnvc : nvc = nvc0 := (congrArg Prod.fst h).symm
      have hss1 : ss1 = ⟨sr2, st2⟩ := (congrArg Prod.snd h).symm
      unfold get_item_version at hgiv
      obtain ⟨h1, h2, h3, h4⟩ :=
        select_entry_spec (parse_ref item) ss.sorted_recipes nvc0 sr2 hgiv hwf
      exact ⟨by rw [hnvc]; exact h1, by rw [hnvc]; exact h2,
        by rw [hss1]; exact h3, by rw [hss1]; exact h4⟩

/-- The one-step unfolding of the resolver at positive fuel. -/
theorem identify_succ (recipes : Catalog RecipeDef) (f : Nat) (ss : SortState)
    (item : String) (chain : List String) :
    identify_build_recipes recipes (f + 1) ss item chain =
      match get_recipe_version recipes ss item with
      | .error e => .error (ResErr.ofGrv e)
      | .ok (nvc, ss1) =>
        if chain.head? == some nvc.name then .error (.circular chain)
        else
          match lookup3 recipes nvc.name nvc.version nvc.cookbook with
          | none => .error .keyError
          | some rdef =>
            match identify_deps_go
                (fun ss2 i ch => identify_build_recipes recipes f ss2 i ch)
                nvc.cookbook rdef.dependencies (chain ++ [nvc.name]) ss1 with
            | .error e => .error e
            | .ok (l, chain2, ss2) => .ok (item :: l, chain2, ss2) := rfl

/-- When the first dependency's recursive resolution fails, the failure
propagates to the caller. -/
theorem identify_first_dep_error (recipes : Catalog RecipeDef) (f : Nat)
    (ss : SortState) (item : String) (chain : List String) (nvc : NVC)
    (ss1 : SortState) (rdef : RecipeDef) (d : String) (ds : List String)
    (e : ResErr)
    (hgrv : get_recipe_version recipes ss item = .ok (nvc, ss1))
    (hchk : (chain.head? == some nvc.name) = false)
    (hlk : lookup3 recipes nvc.name nvc.version nvc.cookbook = some rdef)
    (hdeps : rdef.dependencies = d :: ds)
    (hcall : identify_build_recipes recipes f ss1 (qualify_dep nvc.cookbook d)
      (chain ++ [nvc.name]) = .error e) :
    identify_build_recipes recipes (f + 1) ss item chain = .error e := by
  rw [identify_succ]
  simp only [hgrv, hchk, Bool.false_eq_true, if_false, hlk, hdeps,
    identify_deps_go, hcall]

/-- The base-of-chain check (lines 375-376): when the selected name equals
the base of a non-empty chain, the resolver signals `CircularDependency`
carrying the chain as it stands, before the name is appended. -/
theorem identify_detects_root_cycle (recipes : Catalog RecipeDef) (f : Nat)
    (ss : SortState) (item : String) (c0 : String) (crest : List String)
    (nvc : NVC) (ss1 : SortState)
    (hgrv : get_recipe_version recipes ss item = .ok (nvc, ss1))
    (hname : nvc.name = c0) :
    identify_build_recipes recipes (f + 1) ss item (c0 :: crest) =
      .error (.circular (c0 :: crest)) := by
  rw [identify_succ]
  simp only [hgrv, List.head?_cons, hname]
  simp

theorem recipesBC_loop : ∀ (fuel : Nat) (rest : List String),
    identify_build_recipes recipesBC fuel ssBC "k:b" ("a" :: rest) =
      .error .outOfFuel ∧
    identify_build_recipes recipesBC fuel ssBC "k:c" ("a" :: rest) =
      .error .outOfFuel := by
  intro fuel
  induction fuel with
  | zero => intro rest; exact ⟨rfl, rfl⟩
  | succ f ih =>
    intro rest
    constructor
    · exact identify_first_dep_error recipesBC f ssBC "k:b" ("a" :: rest)
        ⟨"b", "1", "k"⟩ ssBC ⟨["c"], [], true⟩ "c" [] .outOfFuel rfl rfl rfl rfl
        ((ih (rest ++ ["b"])).2)
    · exact identify_first_dep_error recipesBC f ssBC "k:c" ("a" :: rest)
        ⟨"c", "1", "k"⟩ ssBC ⟨["b"], [], true⟩ "b" [] .outOfFuel rfl rfl rfl rfl
        ((ih (rest ++ ["c"])).1)

theorem recipesBC_all_fuel :
    ∀ fuel : Nat,
      identify_build_recipes recipesBC fuel ssBC "k:a" [] =
        .error .outOfFuel := by
  intro fuel
  cases fuel with
  | zero => rfl
  | succ f =>
    exact identify_first_dep_error recipesBC f ssBC "k:a" []
      ⟨"a", "1", "k"⟩ ssBC ⟨["b"], [], true⟩ "b" [] .outOfFuel rfl rfl rfl rfl
      ((recipesBC_loop f []).1)

/-- C6 counterexample: the claim states the resolver signals
`CircularDependency` for every cycle, including cycles that do not pass
through the root.  In the catalog where the root `a` depends on `b` and
`b` and `c` depend on each other, resolving `a` never signals anything:
at recursion depth 1000 the embedded resolver runs out of fuel instead
of returning or raising `CircularDependency` — and `recipesBC_all_fuel`
above shows the same for every depth, so the Python original recurses
without bound, because only the base of the chain (`a`) is ever compared
against the selected name. -/
theorem c6_counterexample :
    identify_build_recipes recipesBC 1000 ssBC "k:a" [] =
      .error .outOfFuel :=
  recipesBC_all_fuel 1000

theorem lookup3_mem {α : Type} (c : Catalog α) (n v cb : String) (x : α)
    (h : lookup3 c n v cb = some x) :
    ∃ vm, (n, vm) ∈ c ∧ ∃ cm, (v, cm) ∈ vm ∧ (cb, x) ∈ cm := by
  unfold lookup3 at h
  cases h1 : lookupA c n with
  | none =>
    simp only [h1] at h
    exact Option.noConfusion h
  | some vm =>
    simp only [h1] at h
    cases h2 : lookupA vm v with
    | none =>
      simp only [h2] at h
      exact Option.noConfusion h
    | some cm =>
      simp only [h2] at h
      exact ⟨vm, lookupA_mem c n vm h1, cm, lookupA_mem vm v cm h2,
        lookupA_mem cm cb x h⟩

/-- Rank-bounded termination of the resolver: with a rank function that
decreases across every possible dependency qualification of the catalog,
the resolver never exhausts a fuel supply exceeding the rank of the
requested name, and a successful resolution preserves the index
invariants. -/
theorem identify_no_fuel_exhaustion (recipes : Catalog RecipeDef)
    (CBS : List String) (rank : String → Nat)
    (H : RankOkCatalog recipes CBS rank) :
    ∀ (n : Nat) (item : String) (ss : SortState) (chain : List String)
      (fuel : Nat),
      WFIndex ss.sorted_recipes →
      (∀ c ∈ all_cookbooks ss.sorted_recipes, c ∈ CBS) →
      rank (refName item) < n → n ≤ fuel →
      identify_build_recipes recipes fuel ss item chain ≠
        .error .outOfFuel ∧
      (∀ l ch ssOut,
        identify_build_recipes recipes fuel ss item chain = .ok (l, ch, ssOut) →
        WFIndex ssOut.sorted_recipes ∧
        ∀ c ∈ all_cookbooks ssOut.sorted_recipes, c ∈ CBS) := by
  intro n
  induction n using Nat.strong_induction_on with
  | _ n ih =>
  intro item ss chain fuel hwf hcb hrank hnf
  cases fuel with
  | zero => omega
  | succ f =>
    cases hgrv : get_recipe_version recipes ss item with
    | error e =>
      constructor
      · intro heq
        rw [identify_succ] at heq
        simp only [hgrv] at heq
        have h2 := Except.error.inj heq
        cases e <;> simp [ResErr.ofGrv] at h2
      · intro l ch ssOut hok
        rw [identify_succ] at hok
        simp only [hgrv] at hok
        exact Except.noConfusion hok
    | ok p =>
      obtain ⟨nvc, ss1⟩ := p
      obtain ⟨hname, hcbm, hwf1, hsub1⟩ :=
        get_recipe_version_spec recipes ss item nvc ss1 hgrv hwf
      cases hchk : (chain.head? == some nvc.name) with
      | true =>
        constructor
        · intro heq
          rw [identify_succ] at heq
          simp only [hgrv, hchk] at heq
          simp at heq
        · intro l ch ssOut hok
          rw [identify_succ] at hok
          simp only [hgrv, hchk] at hok
          simp at hok
      | false =>
        cases hlk : lookup3 recipes nvc.name nvc.version nvc.cookbook with
        | none =>
          constructor
          · intro heq
            rw [identify_succ] at heq
            simp only [hgrv, hchk, Bool.false_eq_true, if_false, hlk] at heq
            exact ResErr.noConfusion (Except.error.inj heq)
          · intro l ch ssOut hok
            rw [identify_succ] at hok
            simp only [hgrv, hchk, Bool.false_eq_true, if_false, hlk] at hok
            exact Except.noConfusion hok
        | some rdef =>
          have hcbCBS : nvc.cookbook ∈ CBS := hcb _ hcbm
          have hchild : ∀ d ∈ rdef.dependencies,
              rank (refName (qualify_dep nvc.cookbook d)) <
                rank (refName item) := by
            intro d hd
            rcases lookup3_mem recipes nvc.name nvc.version nvc.cookbook rdef
              hlk with ⟨vm, hvm, cm, hcm, hcr⟩
            have hlt := H (nvc.name, vm) hvm (nvc.version, cm) hcm
              (nvc.cookbook, rdef) hcr d hd nvc.cookbook hcbCBS
            rw [← hname]
            exact hlt
          have hrankf : rank (refName item) ≤ f := by omega
          have hdeps : ∀ (deps : List String),
              (∀ d ∈ deps,
                rank (refName (qualify_dep nvc.cookbook d)) <
                  rank (refName item)) →
              ∀ (chainX : List String) (ssX : SortState),
                WFIndex ssX.sorted_recipes →
                (∀ c ∈ all_cookbooks ssX.sorted_recipes, c ∈ CBS) →
                identify_deps_go
                    (fun ss2 i ch => identify_build_recipes recipes f ss2 i ch)
                    nvc.cookbook deps chainX ssX ≠ .error .outOfFuel ∧
                (∀ l ch ssOut,
                  identify_deps_go
                      (fun ss2 i ch => identify_build_recipes recipes f ss2 i ch)
                      nvc.cookbook deps chainX ssX = .ok (l, ch, ssOut) →
                  WFIndex ssOut.sorted_recipes ∧
                  ∀ c ∈ all_cookbooks ssOut.sorted_recipes, c ∈ CBS) := by
            intro deps
            induction deps with
            | nil =>
              intro _ chainX ssX hwfX hcbX
              constructor
              · intro heq
                rw [identify_deps_go] at heq
                exact Except.noConfusion heq
              · intro l ch ssOut hok
                rw [identify_deps_go] at hok
                injection hok with hpair
                injection hpair with h1 h23
                injection h23 with h2 h3
                rw [← h3]
                exact ⟨hwfX, hcbX⟩
            | cons d ds ihd =>
              intro hall chainX ssX hwfX hcbX
              have hc1 := ih (rank (refName item)) hrank
                (qualify_dep nvc.cookbook d) ssX chainX f hwfX hcbX
                (hall d (List.mem_cons_self _ _)) hrankf
              cases hcall : identify_build_recipes recipes f ssX
                  (qualify_dep nvc.cookbook d) chainX with
              | error e =>
                have hne : e ≠ .outOfFuel := by
                  intro he
                  rw [he] at hcall
                  exact hc1.1 hcall
                constructor
                · intro heq
                  rw [identify_deps_go] at heq
                  simp only [hcall] at heq
                  exact hne (Except.error.inj heq)
                · intro l ch ssOut hok
                  rw [identify_deps_go] at hok
                  simp only [hcall] at hok
                  exact Except.noConfusion hok
              | ok trip =>
                obtain ⟨l1, ch1, ssY⟩ := trip
                obtain ⟨hwfY, hcbY⟩ := hc1.2 l1 ch1 ssY hcall
                have hrest := ihd
                  (fun d2 hd2 => hall d2 (List.mem_cons_of_mem _ hd2))
                  ch1 ssY hwfY hcbY
                cases hrec : identify_deps_go
                    (fun ss2 i ch => identify_build_recipes recipes f ss2 i ch)
                    nvc.cookbook ds ch1 ssY with
                | error e2 =>
                  have hne2 : e2 ≠ .outOfFuel := by
                    intro he
                    rw [he] at hrec
                    exact hrest.1 hrec
                  constructor
                  · intro heq
                    rw [identify_deps_go] at heq
                    simp only [hcall, hrec] at heq
                    exact hne2 (Except.error.inj heq)
                  · intro l ch ssOut hok
                    rw [identify_deps_go] at hok
                    simp only [hcall, hrec] at hok
                    exact Except.noConfusion hok
                | ok trip2 =>
                  obtain ⟨l2, ch2, ssZ⟩ := trip2
                  obtain ⟨hwfZ, hcbZ⟩ := hrest.2 l2 ch2 ssZ hrec
                  constructor
                  · intro heq
                    rw [identify_deps_go] at heq
                    simp only [hcall, hrec] at heq
                    exact Except.noConfusion heq
                  · intro l ch ssOut hok
                    rw [identify_deps_go] at hok
                    simp only [hcall, hrec] at hok
                    injection hok with hpair
                    injection hpair with h1 h23
                    injection h23 with h2 h3
                    rw [← h3]
                    exact ⟨hwfZ, hcbZ⟩
          have hmain := hdeps rdef.dependencies hchild (chain ++ [nvc.name])
            ss1 hwf1 (fun c hc2 => hcb c (hsub1 c hc2))
          cases hgo : identify_deps_go
              (fun ss2 i ch => identify_build_recipes recipes f ss2 i ch)
              nvc.cookbook rdef.dependencies (chain ++ [nvc.name]) ss1 with
          | error e =>
            have hne : e ≠ .outOfFuel := by
              intro he
              rw [he] at hgo
              exact hmain.1 hgo
            constructor
            · intro heq
              rw [identify_succ] at heq
              simp only [hgrv, hchk, Bool.false_eq_true, if_false, hlk,
                hgo] at heq
              exact hne (Except.error.inj heq)
            · intro l ch ssOut hok
              rw [identify_succ] at hok
              simp only [hgrv, hchk, Bool.false_eq_true, if_false, hlk,
                hgo] at hok
              exact Except.noConfusion hok
          | ok trip =>
            obtain ⟨l0, ch0, ss2⟩ := trip
            obtain ⟨hwf2, hcb2⟩ := hmain.2 l0 ch0 ss2 hgo
            constructor
            · intro heq
              rw [identify_succ] at heq
              simp only [hgrv, hchk, Bool.false_eq_true, if_false, hlk,
                hgo] at heq
              exact Except.noConfusion heq
            · intro l ch ssOut hok
              rw [identify_succ] at hok
              simp only [hgrv, hchk, Bool.false_eq_true, if_false, hlk,
                hgo] at hok
              injection hok with hpair
              injection hpair with h1 h23
              injection h23 with h2 h3
              rw [← h3]
              exact ⟨hwf2, hcb2⟩

/-- C6 (amended): (a) whenever the catalog's dependency graph admits a
rank function that decreases across every possible cookbook qualification
(a topological rank, certifying acyclicity of every dependency the
resolver could follow), the resolver terminates: it never exhausts a
fuel supply exceeding the rank of the requested name, for any chain; and
(b) the only cycle detection is the base-of-chain check: when the name
selected for a reference equals the base of the chain, the resolver
signals `CircularDependency` with the chain as it stands.  A cycle that
does not pass through the base is neither detected nor escaped (see the
counterexample, where the recursion exhausts every fuel supply). -/
theorem c6_terminates_and_detects_root_cycles :
    ∀ (recipes : Catalog RecipeDef) (CBS : List String)
      (rank : String → Nat),
      RankOkCatalog recipes CBS rank →
      (∀ (item : String) (ss : SortState) (chain : List String) (fuel : Nat),
        WFIndex ss.sorted_recipes →
        (∀ c ∈ all_cookbooks ss.sorted_recipes, c ∈ CBS) →
        rank (refName item) < fuel →
        identify_build_recipes recipes fuel ss item chain ≠
          .error .outOfFuel) ∧
      (∀ (fuel : Nat) (ss : SortState) (item : String) (c0 : String)
         (crest : List String) (nvc : NVC) (ss1 : SortState),
        get_recipe_version recipes ss item = .ok (nvc, ss1) →
        nvc.name = c0 →
        identify_build_recipes recipes (fuel + 1) ss item (c0 :: crest) =
          .error (.circular (c0 :: crest))) := by
  intro recipes CBS rank H
  constructor
  · intro item ss chain fuel hwf hcb hlt
    exact (identify_no_fuel_exhaustion recipes CBS rank H fuel item ss chain
      fuel hwf hcb hlt (Nat.le_refl _)).1
  · intro fuel ss item c0 crest nvc ss1 hgrv hname
    exact identify_detects_root_cycle recipes fuel ss item c0 crest nvc ss1
      hgrv hname

/-- C6 witness: on the concrete acyclic catalog `a -> b`, the resolver
with fuel `3` does not exhaust its fuel, and a selection whose name
equals the chain base signals `CircularDependency` with that chain. -/
theorem c6_terminates_witness :
    identify_build_recipes recipesW 3 ssW "k:a" [] ≠ .error .outOfFuel ∧
    identify_build_recipes recipesW 3 ssW "k:a" ["a"] =
      .error (.circular ["a"]) := by
  have h := c6_terminates_and_detects_root_cycles recipesW
    (all_cookbooks ssW.sorted_recipes) (fun s => if s = "a" then 1 else 0)
    (by unfold RankOkCatalog; decide)
  constructor
  · exact h.1 "k:a" ssW [] 3 (by unfold WFIndex; decide) (fun c hc => hc)
      (by decide)
  · exact h.2 2 ssW "k:a" "a" [] ⟨"a", "1", "k"⟩ ssW rfl rfl

/-! ## C8: the trust round-trip -/

/-- C8: for a cookbook present in the catalog map, trusting it, persisting
the map through the config store and reloading it into a fresh (empty)
map yields an entry whose `trusted` flag is `True`. -/
theorem c8_trust_roundtrip :
    ∀ (cbs : CookbookMap) (X : String),
      (cbs.map Prod.fst).Nodup → (lookupA cbs X).isSome →
      (lookupA (load_config [] (config_trust_cookbook cbs X).2.2) X).map
        CookbookEntry.trusted = some (some true) := by
  intro cbs X hnd hsome
  show (lookupA (load_config []
      (store_config (update_or_append cbs X _))) X).map _ = _
  have hkeys : (update_or_append cbs X
      { (lookupA cbs X).getD {} with trusted := some true }).map Prod.fst =
      cbs.map Prod.fst := by
    simp [update_or_append, hsome, keys_updateA]
  rw [show store_config = (id : CookbookMap → CookbookMap) from rfl]
  simp only [id]
  rw [show load_config [] = dict_update [] from rfl]
  rw [dict_update_nil _ (by rw [hkeys]; exact hnd)]
  rw [lookupA_update_or_append_self]
  rfl

/-- C8 witness: the round-trip at the concrete map `cbsRT` and cookbook
`x`. -/
theorem c8_trust_roundtrip_witness :
    ((cbsRT.map Prod.fst).Nodup ∧ (lookupA cbsRT "x").isSome) ∧
    (lookupA (load_config [] (config_trust_cookbook cbsRT "x").2.2) "x").map
      CookbookEntry.trusted = some (some true) :=
  ⟨⟨by decide, by decide⟩, c8_trust_roundtrip cbsRT "x" (by decide) (by decide)⟩

/-! ## C9: `cookbook add` trusts unconditionally -/

/-- C9: `config_add_cookbook` unconditionally sets the added cookbook's
`trusted` flag to `True` and persists the map, and the `cookbook add`
command accepts its `--yes` flag without ever consulting it: the command
body equals `config_add_cookbook` for every value of the flag. -/
theorem c9_cookbook_add_ignores_yes :
    ∀ (cbs : CookbookMap) (cb author url : String) (y1 y2 : Bool),
      cookbook_add cbs cb author url y1 = cookbook_add cbs cb author url y2 ∧
      cookbook_add cbs cb author url y1 = config_add_cookbook cbs cb author url ∧
      (lookupA (config_add_cookbook cbs cb author url).1 cb).map
        CookbookEntry.trusted = some (some true) ∧
      (config_add_cookbook cbs cb author url).2 =
        (config_add_cookbook cbs cb author url).1 := by
  intro cbs cb author url y1 y2
  refine ⟨rfl, rfl, ?_, rfl⟩
  show (lookupA (update_or_append cbs cb _) cb).map _ = _
  rw [lookupA_update_or_append_self]
  rfl

/-! ## C10: trusting an unknown cookbook -/

/-- C10: `config_trust_cookbook` on a cookbook absent from the map logs
the unknown-cookbook error but does not stop: a fresh entry is created
(the `defaultdict`), its `trusted` flag is set to `True`, and the
modified map is persisted. -/
theorem c10_trust_unknown_cookbook :
    ∀ (cbs : CookbookMap) (X : String), lookupA cbs X = none →
      LogMsg.errorUnknownCookbook X ∈ (config_trust_cookbook cbs X).1 ∧
      lookupA (config_trust_cookbook cbs X).2.1 X =
        some { url := none, path := none, trusted := some true, author := none } ∧
      (config_trust_cookbook cbs X).2.2 = (config_trust_cookbook cbs X).2.1 := by
  intro cbs X h
  unfold config_trust_cookbook
  refine ⟨by simp [h], ?_, rfl⟩
  simp only [h]
  rw [lookupA_update_or_append_self]
  rfl

/-- C10 witness: trusting the unknown cookbook `x` starting from the
empty map. -/
theorem c10_trust_unknown_cookbook_witness :
    lookupA ([] : CookbookMap) "x" = none ∧
    (LogMsg.errorUnknownCookbook "x" ∈ (config_trust_cookbook [] "x").1 ∧
     lookupA (config_trust_cookbook [] "x").2.1 "x" =
       some { url := none, path := none, trusted := some true, author := none } ∧
     (config_trust_cookbook [] "x").2.2 = (config_trust_cookbook [] "x").2.1) :=
  ⟨rfl, c10_trust_unknown_cookbook [] "x" rfl⟩

end Mussels
